import Mathlib

/-!
# le_wormy: the snake engine of `main.go`

A shallow embedding of the game state and of the functions of `main.go` that
mutate it, followed by theorems about one engine tick, one input event and the
states reachable through them.

Conventions of the embedding.

* The package-level variables `direction`, `snakePos`, `wallPos`, `applePos`,
  `speed` and `updatedPosition` are the fields of `World`; every function that
  mutates them takes a `World` and returns the new one.
* `int` is `Int`: coordinates are terminal cells and the interval is a number
  of milliseconds, and the arithmetic on them is exact.
* A Go slice is a `List`; `s[a:b]` is `(s.take b).drop a`, `append` is `++`.
* `rand.Intn` reads the next number of an explicit list of raw random numbers
  and reduces it modulo its argument, so every value of `[0, n)` is a possible
  outcome; the retry loop of `drawApple` stops with `Fault.outOfDraws` when the
  list is used up before a free cell was drawn.
* A run-time panic (index out of range, `rand.Intn` with a non-positive
  argument) is a `Fault`.
* Terminal output (`termbox.SetCell`, `Flush`, `tbPrint`) and `time.Sleep` do
  not touch the world and are left out.
* An engine tick (one iteration of the loop of `drawSnake`) and the handling of
  one input event (one iteration of the loop of `controlSnake`) are atomic
  steps.
* The wait group of `main` is a counter in `Session`: `wg.Add(1)` adds one,
  `wg.Done()` subtracts one; `termbox.Interrupt` makes the next `PollEvent`
  return an interrupt event.
-/

namespace LeWormy

/-- The heading constants of the `iota` block. -/
inductive Direction
  | Up
  | Down
  | Left
  | Right
  deriving DecidableEq, Repr

/-- The struct `Point`. -/
structure Point where
  x : Int
  y : Int
  deriving DecidableEq, Repr

/-- The package-level variables of `main.go`. -/
structure World where
  direction : Direction
  snakePos : List Point
  wallPos : List Point
  applePos : List Point
  speed : Int
  updatedPosition : Bool
  deriving DecidableEq, Repr

/-- Ways in which a step fails to produce a next state. -/
inductive Fault
  | indexOutOfRange
  | intnNonPositive
  | outOfDraws
  deriving DecidableEq, Repr

/-- The variable initialisers of `main.go`: heading `Up`, empty slices,
interval 200, latch clear. -/
def initialWorld : World :=
  { direction := Direction.Up, snakePos := [], wallPos := [], applePos := [],
    speed := 200, updatedPosition := false }

/-- The function `drawWalls` on a playfield of `w` columns and `h` rows: the
first loop runs `x` over `0, .., w-1` and appends the top and the bottom cell
of column `x`; the second runs `y` over `1, .., h-2` and appends the left and
the right cell of row `y`. -/
def drawWalls (w h : Int) (wallPos : List Point) : List Point :=
  let rows := (List.range w.toNat).foldl
    (fun acc (x : Nat) => acc ++ [Point.mk (x : Int) 0, Point.mk (x : Int) (h - 1)]) wallPos
  (List.range' 1 (h - 2).toNat).foldl
    (fun acc (y : Nat) => acc ++ [Point.mk 0 (y : Int), Point.mk (w - 1) (y : Int)]) rows

/-- The function `checkCrash`: `p` is a wall cell, or the snake has more than
one segment and `p` is one of `snakePos[1:]`. -/
def checkCrash (s : World) (p : Point) : Bool :=
  if s.wallPos.any (fun sp => decide (p = sp)) then true
  else if s.snakePos.length > 1 then
    (s.snakePos.drop 1).any (fun sp => decide (p = sp))
  else false

/-- Index of the first entry of `applePos` equal to `p`: the `range` loop of
`checkApple` up to its `return true`. -/
def appleIndex (p : Point) : List Point → Option Nat
  | [] => none
  | sp :: rest => if p = sp then some 0 else (appleIndex p rest).map (fun i => i + 1)

/-- The function `checkApple`: at the first index `i` with `applePos[i] = p` the
slice becomes `applePos[:i]` followed by `applePos[i+1:]` and the result is
`true`; without such an index nothing changes and the result is `false`. -/
def checkApple (s : World) (p : Point) : Bool × World :=
  match appleIndex p s.applePos with
  | some i => (true, { s with applePos := s.applePos.take i ++ s.applePos.drop (i + 1) })
  | none => (false, s)

/-- The function `increaseSpeed`. -/
def increaseSpeed (s : World) : World :=
  let speed := s.speed - 10
  if speed ≤ 0 then { s with speed := 10 } else { s with speed := speed }

/-- The function `drawApple`, called with the slice `snakePos`: each round of
the `retry` loop draws `x = rand.Intn(w-2) + 1` and `y = rand.Intn(h-2) + 1` and
starts over when the cell is a segment of `snakePos`; the first free cell is
appended to `applePos`. The result carries the random numbers not yet read. -/
def drawApple (w h : Int) (snakePos : List Point) (s : World) :
    List Nat → Except Fault (World × List Nat)
  | [] => if w - 2 ≤ 0 then Except.error Fault.intnNonPositive
          else Except.error Fault.outOfDraws
  | [_] => if w - 2 ≤ 0 then Except.error Fault.intnNonPositive
           else if h - 2 ≤ 0 then Except.error Fault.intnNonPositive
           else Except.error Fault.outOfDraws
  | rx :: ry :: rest =>
    if w - 2 ≤ 0 then Except.error Fault.intnNonPositive
    else if h - 2 ≤ 0 then Except.error Fault.intnNonPositive
    else
      let x : Int := (rx : Int) % (w - 2) + 1
      let y : Int := (ry : Int) % (h - 2) + 1
      if snakePos.any (fun sp => decide (Point.mk x y = sp)) then
        drawApple w h snakePos s rest
      else
        Except.ok ({ s with applePos := s.applePos ++ [Point.mk x y] }, rest)

/-- The cell next to `p` in heading `d`: the new head of the four `case`s of the
`switch direction` in `drawSnake`. -/
def nextHead (d : Direction) (p : Point) : Point :=
  match d with
  | Direction.Up => Point.mk p.x (p.y - 1)
  | Direction.Down => Point.mk p.x (p.y + 1)
  | Direction.Left => Point.mk (p.x - 1) p.y
  | Direction.Right => Point.mk (p.x + 1) p.y

/-- The move step of `drawSnake`: the `switch direction` that replaces
`snakePos` with the new head followed by `snakePos[0:len(snakePos)-1]`, and the
reset of `updatedPosition`. Reading `snakePos[0]` of an empty slice is a
fault. -/
def moveSnake (s : World) : Except Fault World :=
  match s.snakePos with
  | [] => Except.error Fault.indexOutOfRange
  | hd :: _ =>
    Except.ok { s with
      snakePos := [nextHead s.direction hd] ++ s.snakePos.take (s.snakePos.length - 1),
      updatedPosition := false }

/-- Outcome of one iteration of the loop of `drawSnake`. -/
inductive TickResult
  | running (s : World) (rnd : List Nat)
  | over (s : World)
  deriving DecidableEq, Repr

/-- One iteration of the loop of `drawSnake`, from the read of `lastPos` to the
end of the loop body: save the tail, move, clear the latch, return on a crash,
otherwise run the food check and on a hit grow, speed up and spawn. -/
def drawSnakeTick (w h : Int) (s : World) (rnd : List Nat) : Except Fault TickResult :=
  match s.snakePos.getLast? with
  | none => Except.error Fault.indexOutOfRange
  | some lastPos =>
    match moveSnake s with
    | Except.error e => Except.error e
    | Except.ok s1 =>
      match s1.snakePos with
      | [] => Except.error Fault.indexOutOfRange
      | p :: _ =>
        if checkCrash s1 p then Except.ok (TickResult.over s1)
        else
          match checkApple s1 p with
          | (true, s2) =>
            let s3 := { s2 with snakePos := s2.snakePos ++ [lastPos] }
            let s4 := increaseSpeed s3
            match drawApple w h s4.snakePos s4 rnd with
            | Except.error e => Except.error e
            | Except.ok (s5, rest) => Except.ok (TickResult.running s5 rest)
          | (false, s2) => Except.ok (TickResult.running s2 rnd)

/-- The event types `controlSnake` tells apart. -/
inductive EventType
  | EventKey
  | EventInterrupt
  | EventOther
  deriving DecidableEq, Repr

/-- The keys `controlSnake` tells apart. -/
inductive Key
  | KeyEsc
  | KeyArrowUp
  | KeyArrowDown
  | KeyArrowLeft
  | KeyArrowRight
  | KeyOther
  deriving DecidableEq, Repr

/-- The fields of a `termbox.Event` that `controlSnake` reads. -/
structure Event where
  type : EventType
  key : Key
  ch : Char
  deriving DecidableEq, Repr

/-- Outcome of one iteration of the loop of `controlSnake`. -/
inductive ControlResult
  | looping (s : World) (rnd : List Nat)
  | exited (s : World)
  deriving DecidableEq, Repr

/-- The guarded assignment shared by the four arrow-key cases of
`controlSnake`: with `rev` the reverse of the requested heading `d`,
`if (direction != rev || len(snakePos) == 1) && !updatedPosition`. -/
def turn (d rev : Direction) (s : World) : World :=
  if (s.direction ≠ rev ∨ s.snakePos.length = 1) ∧ s.updatedPosition = false then
    { s with direction := d, updatedPosition := true }
  else s

/-- The `if ev.Ch == ..` chain that ends the loop body of `controlSnake`. -/
def charCommand (w h : Int) (ev : Event) (s : World) (rnd : List Nat) :
    Except Fault ControlResult :=
  if ev.ch = '-' then Except.ok (ControlResult.looping { s with speed := s.speed + 10 } rnd)
  else if ev.ch = '+' then Except.ok (ControlResult.looping (increaseSpeed s) rnd)
  else if ev.ch = 'n' then
    match drawApple w h s.snakePos s rnd with
    | Except.error e => Except.error e
    | Except.ok (s1, rest) => Except.ok (ControlResult.looping s1 rest)
  else Except.ok (ControlResult.looping s rnd)

/-- One iteration of the loop of `controlSnake` on the event `ev`. -/
def controlSnakeStep (w h : Int) (ev : Event) (s : World) (rnd : List Nat) :
    Except Fault ControlResult :=
  match ev.type with
  | EventType.EventKey =>
    match ev.key with
    | Key.KeyEsc => Except.ok (ControlResult.exited s)
    | Key.KeyArrowUp => charCommand w h ev (turn Direction.Up Direction.Down s) rnd
    | Key.KeyArrowDown => charCommand w h ev (turn Direction.Down Direction.Up s) rnd
    | Key.KeyArrowLeft => charCommand w h ev (turn Direction.Left Direction.Right s) rnd
    | Key.KeyArrowRight => charCommand w h ev (turn Direction.Right Direction.Left s) rnd
    | Key.KeyOther => charCommand w h ev s rnd
  | EventType.EventInterrupt => Except.ok (ControlResult.exited s)
  | EventType.EventOther => charCommand w h ev s rnd

/-- The start of `main` up to the launch of the two loops: the snake is the
single cell `(w/2, h/2)`, the walls are built, one apple is spawned. -/
def mainInit (w h : Int) (rnd : List Nat) : Except Fault (World × List Nat) :=
  let s0 := { initialWorld with
    snakePos := initialWorld.snakePos ++ [Point.mk (Int.tdiv w 2) (Int.tdiv h 2)] }
  let s1 := { s0 with wallPos := drawWalls w h s0.wallPos }
  drawApple w h s1.snakePos s1 rnd

/-- The reverse of a heading. -/
def Direction.opposite : Direction → Direction
  | Direction.Up => Direction.Down
  | Direction.Down => Direction.Up
  | Direction.Left => Direction.Right
  | Direction.Right => Direction.Left

/-- The event termbox delivers for an arrow key: a key event with no
character. -/
def arrowEvent (d : Direction) : Event :=
  match d with
  | Direction.Up => Event.mk EventType.EventKey Key.KeyArrowUp (Char.ofNat 0)
  | Direction.Down => Event.mk EventType.EventKey Key.KeyArrowDown (Char.ofNat 0)
  | Direction.Left => Event.mk EventType.EventKey Key.KeyArrowLeft (Char.ofNat 0)
  | Direction.Right => Event.mk EventType.EventKey Key.KeyArrowRight (Char.ofNat 0)

/-- The event termbox delivers for a character key. -/
def charEvent (c : Char) : Event :=
  Event.mk EventType.EventKey Key.KeyOther c

/-- States of the running game reachable from the start of `main` through
engine ticks and through input events that satisfy `allowed`. -/
inductive ReachableVia (allowed : Event → Prop) (w h : Int) : World → Prop
  | init (rnd rest : List Nat) (s : World) :
      mainInit w h rnd = Except.ok (s, rest) → ReachableVia allowed w h s
  | tick (s s1 : World) (rnd rest : List Nat) :
      ReachableVia allowed w h s →
      drawSnakeTick w h s rnd = Except.ok (TickResult.running s1 rest) →
      ReachableVia allowed w h s1
  | input (s s1 : World) (ev : Event) (rnd rest : List Nat) :
      ReachableVia allowed w h s → allowed ev →
      controlSnakeStep w h ev s rnd = Except.ok (ControlResult.looping s1 rest) →
      ReachableVia allowed w h s1

/-- States reachable through engine ticks and any input events. -/
def Reachable (w h : Int) (s : World) : Prop :=
  ReachableVia (fun _ => True) w h s

/-- The world after the move step of a tick whose old head is `hd`. -/
def movedWorld (s : World) (hd : Point) : World :=
  { s with snakePos := nextHead s.direction hd :: s.snakePos.dropLast,
           updatedPosition := false }

/-- The world handed to the spawner on a tick that eats: the snake is the new
head followed by the whole old snake, the eaten apple is erased, the interval
went through `increaseSpeed`. -/
def grownWorld (s : World) (hd : Point) : World :=
  increaseSpeed { s with
    snakePos := nextHead s.direction hd :: s.snakePos,
    applePos := s.applePos.erase (nextHead s.direction hd),
    updatedPosition := false }

/-- The offset table of the specification: Up `(0,-1)`, Down `(0,+1)`,
Left `(-1,0)`, Right `(+1,0)`. -/
def offset : Direction → Int × Int
  | Direction.Up => (0, -1)
  | Direction.Down => (0, 1)
  | Direction.Left => (-1, 0)
  | Direction.Right => (1, 0)


/-- The snake `[(2,2),(2,3),(3,3),(3,2)]` heading Right on the 6 x 6 playfield:
the new head `(3,2)` is the cell of the old tail. -/
def tailChaser : World :=
  { direction := Direction.Right,
    snakePos := [Point.mk 2 2, Point.mk 2 3, Point.mk 3 3, Point.mk 3 2],
    wallPos := drawWalls 6 6 [], applePos := [], speed := 200, updatedPosition := false }

/-- The snake `[(3,2)]` heading Right on the 5 x 5 playfield, one cell left of
the wall column `x = 4`. -/
def besideWall : World :=
  { direction := Direction.Right, snakePos := [Point.mk 3 2],
    wallPos := drawWalls 5 5 [], applePos := [Point.mk 1 1], speed := 200,
    updatedPosition := false }

/-- The scenario of the specification: 5 x 5 playfield, snake `[(2,2)]`,
heading Right, one food at `(3,2)`, interval 200. -/
def scenarioWorld : World :=
  { direction := Direction.Right, snakePos := [Point.mk 2 2],
    wallPos := drawWalls 5 5 [], applePos := [Point.mk 3 2], speed := 200,
    updatedPosition := false }

/-- The world after the tick of `scenarioWorld` when the spawner draws the cell
`(1,1)`. -/
def scenarioAfter : World :=
  { direction := Direction.Right, snakePos := [Point.mk 3 2, Point.mk 2 2],
    wallPos := drawWalls 5 5 [], applePos := [Point.mk 1 1], speed := 190,
    updatedPosition := false }

/-- The world carried by the outcome of a tick. -/
def TickResult.world : TickResult → World
  | TickResult.running s _ => s
  | TickResult.over s => s

/-- One entry of a schedule: an engine tick or an input event, each with the
random numbers it may read. -/
inductive Step
  | tick (rnd : List Nat)
  | input (ev : Event) (rnd : List Nat)
  deriving DecidableEq, Repr

/-- Runs a schedule from the world `s`; `none` when a step faults or when one
of the two loops returns before the schedule is used up. -/
def runSteps (w h : Int) (s : World) : List Step → Option World
  | [] => some s
  | Step.tick rnd :: more =>
    match drawSnakeTick w h s rnd with
    | Except.ok (TickResult.running s1 _) => runSteps w h s1 more
    | _ => none
  | Step.input ev rnd :: more =>
    match controlSnakeStep w h ev s rnd with
    | Except.ok (ControlResult.looping s1 _) => runSteps w h s1 more
    | _ => none

/-- Runs `main` up to the launch of the loops and then a schedule. -/
def runGame (w h : Int) (rnd : List Nat) (steps : List Step) : Option World :=
  match mainInit w h rnd with
  | Except.ok (s, _) => runSteps w h s steps
  | Except.error _ => none

/-- The input events of a player: the four arrow keys and the characters
`+`, `-` and `n`. -/
def playerEvent (ev : Event) : Prop :=
  (∃ d, ev = arrowEvent d) ∨ ev = charEvent '+' ∨ ev = charEvent '-' ∨ ev = charEvent 'n'

/-- Input events that do not reach the `n` branch of `controlSnake`. -/
def noSpawn (ev : Event) : Prop :=
  ev.ch ≠ 'n'

/-- Every input event of a schedule satisfies `allowed`. -/
def stepsAllowed (allowed : Event → Prop) : List Step → Prop
  | [] => True
  | Step.tick _ :: more => stepsAllowed allowed more
  | Step.input ev _ :: more => allowed ev ∧ stepsAllowed allowed more

/-- A schedule on the 6 x 6 playfield: the snake eats at `(3,2)` and `(3,1)`,
an `n` event puts a second apple on `(2,1)`, the snake eats the first one
there and then walks the square `(2,2)`, `(3,2)`, `(3,1)`, `(2,1)`, each time
into the cell its tail leaves. -/
def overlapSchedule : List Step :=
  [ Step.tick [2, 0],
    Step.tick [1, 0],
    Step.input (charEvent 'n') [1, 0],
    Step.input (arrowEvent Direction.Left) [],
    Step.tick [0, 3],
    Step.input (arrowEvent Direction.Down) [],
    Step.tick [],
    Step.input (arrowEvent Direction.Right) [],
    Step.tick [],
    Step.input (arrowEvent Direction.Up) [],
    Step.tick [],
    Step.input (arrowEvent Direction.Left) [],
    Step.tick [0, 0] ]

/-- The world at the end of `overlapSchedule`: the cell `(2,1)` is both the
head and the tail of the snake. -/
def overlapWorld : World :=
  { direction := Direction.Left,
    snakePos := [Point.mk 2 1, Point.mk 3 1, Point.mk 3 2, Point.mk 2 2, Point.mk 2 1],
    wallPos := drawWalls 6 6 [],
    applePos := [Point.mk 1 4, Point.mk 1 1],
    speed := 160, updatedPosition := false }

/-- Invariant behind the absence of overlaps when no `n` event occurs: the
snake has no repeated cell, at most one apple is on the field, and no apple
lies on the snake. -/
def SnakeInv (s : World) : Prop :=
  s.snakePos.Nodup ∧ s.applePos.length ≤ 1 ∧ ∀ a ∈ s.applePos, a ∉ s.snakePos

/-- Invariant behind the neck rule: when the snake has a neck, the head lies
one step from the neck in some heading `d0`, the current heading is not the
reverse of `d0`, and it is `d0` itself while the latch is clear. -/
def NeckInv (s : World) : Prop :=
  ∀ hd neck rest, s.snakePos = hd :: neck :: rest →
    ∃ d0, hd = nextHead d0 neck ∧ s.direction ≠ d0.opposite ∧
      (s.updatedPosition = false → s.direction = d0)

/-- A schedule on the 6 x 6 playfield without `n` events: the snake eats at
`(3,2)`, turns left and moves one cell. -/
def quietSchedule : List Step :=
  [ Step.tick [2, 0],
    Step.input (arrowEvent Direction.Left) [],
    Step.input (charEvent '+') [],
    Step.tick [] ]

/-- The world at the end of `quietSchedule`. -/
def quietWorld : World :=
  { direction := Direction.Left,
    snakePos := [Point.mk 2 2, Point.mk 3 2],
    wallPos := drawWalls 6 6 [],
    applePos := [Point.mk 3 1],
    speed := 180, updatedPosition := false }

/-- Handles the arrow-key events of `keys` one after the other, with no tick in
between. -/
def pressArrows (w h : Int) : List Direction → World → List Nat → Except Fault ControlResult
  | [], s, rnd => Except.ok (ControlResult.looping s rnd)
  | d :: more, s, rnd =>
    match controlSnakeStep w h (arrowEvent d) s rnd with
    | Except.ok (ControlResult.looping s1 rest) => pressArrows w h more s1 rest
    | other => other

/-- A three-segment snake heading Up with the latch clear. -/
def upwardSnake : World :=
  { direction := Direction.Up,
    snakePos := [Point.mk 2 2, Point.mk 2 3, Point.mk 2 4],
    wallPos := drawWalls 7 7 [], applePos := [Point.mk 4 4], speed := 200,
    updatedPosition := false }

/-- The world `upwardSnake` after an accepted arrow-Left: heading Left, latch
set. -/
def latchedSnake : World :=
  { upwardSnake with direction := Direction.Left, updatedPosition := true }

/-- A single-segment snake heading Up with the latch clear. -/
def loneSegment : World :=
  { direction := Direction.Up, snakePos := [Point.mk 3 3],
    wallPos := drawWalls 7 7 [], applePos := [Point.mk 4 4], speed := 200,
    updatedPosition := false }

/-- Invariant of the tick interval: at least 10 and a multiple of 10. -/
def SpeedInv (s : World) : Prop :=
  10 ≤ s.speed ∧ (10 : Int) ∣ s.speed

/-- A world whose interval is at the floor of 10. -/
def floorWorld : World :=
  { direction := Direction.Up, snakePos := [Point.mk 3 3],
    wallPos := drawWalls 7 7 [], applePos := [Point.mk 4 4], speed := 10,
    updatedPosition := false }

/-- The world `scenarioAfter` with one more apple, on `(2,1)`. -/
def scenarioSpawned : World :=
  { scenarioAfter with applePos := [Point.mk 1 1, Point.mk 2 1] }

/-- The snake `[(2,2),(2,3),(2,4)]` with heading Down and the latch clear. -/
def downwardSnake : World :=
  { upwardSnake with direction := Direction.Down }

/-- Invariant of the playfield: the wall list is the one built for `w` x `h`
and every snake segment is an interior cell. -/
def InteriorInv (w h : Int) (s : World) : Prop :=
  s.wallPos = drawWalls w h [] ∧
    ∀ p ∈ s.snakePos, 1 ≤ p.x ∧ p.x ≤ w - 2 ∧ 1 ≤ p.y ∧ p.y ≤ h - 2

/-- The snake `[(2,2),(2,3),(3,3),(3,2),(3,1)]` heading Right on the 6 x 6
playfield: the new head `(3,2)` is the old segment at index 3, which is not the
tail. -/
def selfBiter : World :=
  { direction := Direction.Right,
    snakePos := [Point.mk 2 2, Point.mk 2 3, Point.mk 3 3, Point.mk 3 2, Point.mk 3 1],
    wallPos := drawWalls 6 6 [], applePos := [Point.mk 1 1], speed := 200,
    updatedPosition := false }

/-- Invariant behind the absence of overlaps: the snake has no repeated cell
and no apple lies on the snake. -/
def OffSnakeInv (s : World) : Prop :=
  s.snakePos.Nodup ∧ ∀ a ∈ s.applePos, a ∉ s.snakePos

/-- States of the running game reachable from the start of `main` through
engine ticks and any input events, where every engine tick on the way starts
from a food list without repeated entry. -/
inductive ReachableDistinctFood (w h : Int) : World → Prop
  | init (rnd rest : List Nat) (s : World) :
      mainInit w h rnd = Except.ok (s, rest) → ReachableDistinctFood w h s
  | tick (s s1 : World) (rnd rest : List Nat) :
      ReachableDistinctFood w h s → s.applePos.Nodup →
      drawSnakeTick w h s rnd = Except.ok (TickResult.running s1 rest) →
      ReachableDistinctFood w h s1
  | input (s s1 : World) (ev : Event) (rnd rest : List Nat) :
      ReachableDistinctFood w h s →
      controlSnakeStep w h ev s rnd = Except.ok (ControlResult.looping s1 rest) →
      ReachableDistinctFood w h s1

/-- Checks, along the run of a schedule from `s`, that every tick starts from a
food list without repeated entry. -/
def distinctFoodRun (w h : Int) (s : World) : List Step → Bool
  | [] => true
  | Step.tick rnd :: more =>
    decide s.applePos.Nodup &&
      match drawSnakeTick w h s rnd with
      | Except.ok (TickResult.running s1 _) => distinctFoodRun w h s1 more
      | _ => true
  | Step.input ev rnd :: more =>
    match controlSnakeStep w h ev s rnd with
    | Except.ok (ControlResult.looping s1 _) => distinctFoodRun w h s1 more
    | _ => true

/-- The check `distinctFoodRun` for a schedule run from the start of `main`. -/
def distinctFoodGame (w h : Int) (rnd : List Nat) (steps : List Step) : Bool :=
  match mainInit w h rnd with
  | Except.ok (s, _) => distinctFoodRun w h s steps
  | Except.error _ => true

/-- A schedule on the 6 x 6 playfield with an `n` event: the snake eats at
`(3,2)`, the `n` event puts a second apple on the free cell `(1,4)`, the snake
turns left and moves one cell. -/
def spawnSchedule : List Step :=
  [ Step.tick [2, 0],
    Step.input (charEvent 'n') [0, 3],
    Step.input (arrowEvent Direction.Left) [],
    Step.tick [] ]

/-- The world at the end of `spawnSchedule`. -/
def spawnWorld : World :=
  { direction := Direction.Left,
    snakePos := [Point.mk 2 2, Point.mk 3 2],
    wallPos := drawWalls 6 6 [],
    applePos := [Point.mk 3 1, Point.mk 1 4],
    speed := 190, updatedPosition := false }

/-- The session that `main` starts: the world, the counter of the wait group
`wg`, whether `termbox.Interrupt` was called, and which of the two goroutines
have not returned yet. -/
structure Session where
  world : World
  wgCounter : Int
  interrupted : Bool
  engineLive : Bool
  inputLive : Bool
  deriving DecidableEq, Repr

/-- The body of `main` up to `wg.Wait()`: the world of `mainInit`, `wg.Add(1)` on
a fresh wait group, and the two `go` statements. -/
def sessionStart (w h : Int) (rnd : List Nat) : Except Fault (Session × List Nat) :=
  match mainInit w h rnd with
  | Except.error e => Except.error e
  | Except.ok (s, rest) =>
    Except.ok ({ world := s, wgCounter := 0 + 1, interrupted := false,
                 engineLive := true, inputLive := true }, rest)

/-- One iteration of the loop of `drawSnake` inside the session: on a crash the
goroutine calls `termbox.Interrupt()`, then `wg.Done()`, and returns. -/
def engineStep (w h : Int) (ss : Session) (rnd : List Nat) :
    Except Fault (Session × List Nat) :=
  match drawSnakeTick w h ss.world rnd with
  | Except.error e => Except.error e
  | Except.ok (TickResult.running s1 rest) => Except.ok ({ ss with world := s1 }, rest)
  | Except.ok (TickResult.over s1) =>
    Except.ok ({ ss with world := s1, interrupted := true,
                         wgCounter := ss.wgCounter - 1, engineLive := false }, rnd)

/-- The event `termbox.PollEvent` returns once `termbox.Interrupt` was
called. -/
def interruptEvent : Event :=
  Event.mk EventType.EventInterrupt Key.KeyOther (Char.ofNat 0)

/-- The event termbox delivers for the Esc key. -/
def escEvent : Event :=
  Event.mk EventType.EventKey Key.KeyEsc (Char.ofNat 0)

/-- One iteration of the loop of `controlSnake` inside the session: `PollEvent`
returns `interruptEvent` when `termbox.Interrupt` was called and the user's
event `ev` otherwise; when the loop is left the goroutine calls `wg.Done()` and
returns. -/
def inputStep (w h : Int) (ev : Event) (ss : Session) (rnd : List Nat) :
    Except Fault (Session × List Nat) :=
  match controlSnakeStep w h (if ss.interrupted then interruptEvent else ev) ss.world rnd with
  | Except.error e => Except.error e
  | Except.ok (ControlResult.looping s1 rest) => Except.ok ({ ss with world := s1 }, rest)
  | Except.ok (ControlResult.exited s1) =>
    Except.ok ({ ss with world := s1, wgCounter := ss.wgCounter - 1,
                         inputLive := false }, rnd)

/-- Runs a schedule of the two goroutines from the session `ss`; a goroutine
that has returned takes no further step. The process lives on while the
schedule runs: `main` returns from `wg.Wait()` when the counter reaches zero and
the goroutines run until the process exits. -/
def runSession (w h : Int) (ss : Session) : List Step → Option Session
  | [] => some ss
  | Step.tick rnd :: more =>
    if ss.engineLive then
      match engineStep w h ss rnd with
      | Except.ok (ss1, _) => runSession w h ss1 more
      | Except.error _ => none
    else none
  | Step.input ev rnd :: more =>
    if ss.inputLive then
      match inputStep w h ev ss rnd with
      | Except.ok (ss1, _) => runSession w h ss1 more
      | Except.error _ => none
    else none

/-- Runs `main` up to `wg.Wait()` and then a schedule of the two goroutines. -/
def runMain (w h : Int) (rnd : List Nat) (steps : List Step) : Option Session :=
  match sessionStart w h rnd with
  | Except.ok (ss, _) => runSession w h ss steps
  | Except.error _ => none

/-- The world of the 4 x 4 playfield after the snake, started on `(2,2)` with
heading Up and no key typed, has entered the wall row `y = 0` on its second
tick. -/
def crashedWorld : World :=
  { direction := Direction.Up, snakePos := [Point.mk 2 0],
    wallPos := drawWalls 4 4 [], applePos := [Point.mk 1 1], speed := 200,
    updatedPosition := false }

/-- The world of the 4 x 4 playfield at the launch of the two goroutines when
the first apple is drawn on `(1,1)`. -/
def freshWorld : World :=
  { direction := Direction.Up, snakePos := [Point.mk 2 2],
    wallPos := drawWalls 4 4 [], applePos := [Point.mk 1 1], speed := 200,
    updatedPosition := false }

/-! ## Lemmas on the embedded functions -/

/-- The scan of `checkApple` finds no index exactly when `p` is not in the
list. -/
theorem appleIndex_eq_none (p : Point) (l : List Point) :
    appleIndex p l = none ↔ p ∉ l := by
  induction l with
  | nil => simp [appleIndex]
  | cons sp rest ih =>
    by_cases hp : p = sp
    · simp [appleIndex, hp]
    · simp [appleIndex, hp, ih]

/-- At the index found by the scan, cutting the entry out is `List.erase`. -/
theorem appleIndex_some (p : Point) (l : List Point) (i : Nat)
    (hi : appleIndex p l = some i) :
    l.take i ++ l.drop (i + 1) = l.erase p ∧ p ∈ l := by
  induction l generalizing i with
  | nil => simp [appleIndex] at hi
  | cons sp rest ih =>
    by_cases hp : p = sp
    · subst hp
      simp [appleIndex] at hi
      subst hi
      simp
    · simp only [appleIndex, hp, if_false, Option.map_eq_some'] at hi
      obtain ⟨j, hj, rfl⟩ := hi
      obtain ⟨h1, h2⟩ := ih j hj
      have hne : (sp == p) = false := by
        simp only [beq_eq_false_iff_ne, ne_eq]
        exact fun h => hp h.symm
      refine ⟨?_, List.mem_cons_of_mem _ h2⟩
      simp [List.erase_cons, hne, h1]

/-- The food check on a cell that is in the food list. -/
theorem checkApple_of_mem (s : World) (p : Point) (hp : p ∈ s.applePos) :
    checkApple s p = (true, { s with applePos := s.applePos.erase p }) := by
  unfold checkApple
  cases hi : appleIndex p s.applePos with
  | none => exact absurd hp ((appleIndex_eq_none p s.applePos).1 hi)
  | some i => simp [(appleIndex_some p s.applePos i hi).1]

/-- The food check on a cell that is not in the food list. -/
theorem checkApple_of_not_mem (s : World) (p : Point) (hp : p ∉ s.applePos) :
    checkApple s p = (false, s) := by
  unfold checkApple
  rw [(appleIndex_eq_none p s.applePos).2 hp]

/-- The crash check as membership in the walls or in `snakePos[1:]`. -/
theorem checkCrash_eq_true_iff (s : World) (p : Point) :
    checkCrash s p = true ↔ p ∈ s.wallPos ∨ p ∈ s.snakePos.drop 1 := by
  unfold checkCrash
  by_cases hw : p ∈ s.wallPos
  · simp [hw]
  · by_cases hl : s.snakePos.length > 1
    · simp [hw, hl]
    · have hd : s.snakePos.drop 1 = [] := by
        apply List.drop_eq_nil_of_le
        omega
      simp [hw, hl, hd]

/-- The move step on a non-empty snake. -/
theorem moveSnake_cons (s : World) (hd : Point) (tl : List Point)
    (hs : s.snakePos = hd :: tl) : moveSnake s = Except.ok (movedWorld s hd) := by
  unfold moveSnake movedWorld
  rw [hs]
  simp [List.dropLast_eq_take]

/-- The tail read by a tick, and the old snake rebuilt from it. -/
theorem getLast_cons_some (hd : Point) (tl : List Point) :
    ∃ lastPos, (hd :: tl).getLast? = some lastPos ∧
      (hd :: tl).dropLast ++ [lastPos] = hd :: tl := by
  refine ⟨(tl.getLast?).getD hd, List.getLast?_cons, ?_⟩
  exact List.dropLast_append_getLast? _ (by simp [List.getLast?_cons])

/-- A tick whose new head is a wall cell or a cell of the shifted body ends in
Over. -/
theorem drawSnakeTick_crash (w h : Int) (s : World) (rnd : List Nat) (hd : Point)
    (tl : List Point) (hs : s.snakePos = hd :: tl)
    (hc : nextHead s.direction hd ∈ s.wallPos ∨
      nextHead s.direction hd ∈ (hd :: tl).dropLast) :
    drawSnakeTick w h s rnd = Except.ok (TickResult.over (movedWorld s hd)) := by
  obtain ⟨lastPos, hl, _⟩ := getLast_cons_some hd tl
  have hcr : checkCrash (movedWorld s hd) (nextHead s.direction hd) = true := by
    rw [checkCrash_eq_true_iff]
    simpa [movedWorld, hs] using hc
  unfold drawSnakeTick
  rw [hs, hl]
  simp only []
  rw [moveSnake_cons s hd tl hs]
  simp only [movedWorld] at hcr ⊢
  simp [hcr]

/-- A tick that neither crashes nor eats returns the moved world. -/
theorem drawSnakeTick_plain (w h : Int) (s : World) (rnd : List Nat) (hd : Point)
    (tl : List Point) (hs : s.snakePos = hd :: tl)
    (hw : nextHead s.direction hd ∉ s.wallPos)
    (hb : nextHead s.direction hd ∉ (hd :: tl).dropLast)
    (ha : nextHead s.direction hd ∉ s.applePos) :
    drawSnakeTick w h s rnd = Except.ok (TickResult.running (movedWorld s hd) rnd) := by
  obtain ⟨lastPos, hl, _⟩ := getLast_cons_some hd tl
  have hcr : checkCrash (movedWorld s hd) (nextHead s.direction hd) = false := by
    rw [← Bool.not_eq_true, checkCrash_eq_true_iff]
    simpa [movedWorld, hs] using And.intro hw hb
  have hap := checkApple_of_not_mem (movedWorld s hd) (nextHead s.direction hd)
    (by simpa [movedWorld] using ha)
  unfold drawSnakeTick
  rw [hs, hl]
  simp only []
  rw [moveSnake_cons s hd tl hs]
  simp only [movedWorld] at hcr hap ⊢
  simp [hcr, hap]

/-- A tick that eats hands the grown world to the spawner. -/
theorem drawSnakeTick_eat (w h : Int) (s : World) (rnd : List Nat) (hd : Point)
    (tl : List Point) (hs : s.snakePos = hd :: tl)
    (hw : nextHead s.direction hd ∉ s.wallPos)
    (hb : nextHead s.direction hd ∉ (hd :: tl).dropLast)
    (ha : nextHead s.direction hd ∈ s.applePos) :
    drawSnakeTick w h s rnd =
      match drawApple w h (grownWorld s hd).snakePos (grownWorld s hd) rnd with
      | Except.error e => Except.error e
      | Except.ok (s5, rest) => Except.ok (TickResult.running s5 rest) := by
  obtain ⟨lastPos, hl, hdl⟩ := getLast_cons_some hd tl
  have hcr : checkCrash (movedWorld s hd) (nextHead s.direction hd) = false := by
    rw [← Bool.not_eq_true, checkCrash_eq_true_iff]
    simpa [movedWorld, hs] using And.intro hw hb
  have hap := checkApple_of_mem (movedWorld s hd) (nextHead s.direction hd)
    (by simpa [movedWorld] using ha)
  have hg : increaseSpeed
      { direction := s.direction,
        snakePos := nextHead s.direction hd :: s.snakePos.dropLast ++ [lastPos],
        wallPos := s.wallPos,
        applePos := s.applePos.erase (nextHead s.direction hd),
        speed := s.speed, updatedPosition := false } = grownWorld s hd := by
    unfold grownWorld
    rw [hs, List.cons_append, hdl]
  unfold drawSnakeTick
  rw [hs, hl]
  simp only []
  rw [moveSnake_cons s hd tl hs]
  simp only [movedWorld] at hcr hap ⊢
  simp only [hcr, hap, Bool.false_eq_true, if_false]
  rw [hg]


/-- The new head is never the old head. -/
theorem nextHead_ne (d : Direction) (p : Point) : nextHead d p ≠ p := by
  intro hp
  have hx := congrArg Point.x hp
  have hy := congrArg Point.y hp
  cases d <;> simp [nextHead] at hx hy

/-- Membership in a list without its last element, by index. -/
theorem mem_dropLast_iff (a : Point) (l : List Point) :
    a ∈ l.dropLast ↔ ∃ i, i + 1 < l.length ∧ l[i]? = some a := by
  rw [List.dropLast_eq_take, List.mem_iff_getElem?]
  constructor
  · rintro ⟨n, hn⟩
    rw [List.getElem?_take] at hn
    by_cases hlt : n < l.length - 1
    · rw [if_pos hlt] at hn
      exact ⟨n, by omega, hn⟩
    · rw [if_neg hlt] at hn
      exact absurd hn (by simp)
  · rintro ⟨i, hi, hget⟩
    refine ⟨i, ?_⟩
    rw [List.getElem?_take, if_pos (by omega)]
    exact hget

/-- A loop that appends `f a` for each `a` builds `init ++ l.flatMap f`. -/
theorem foldl_append_flatMap {α : Type} (f : α → List Point) (l : List α)
    (init : List Point) :
    l.foldl (fun acc a => acc ++ f a) init = init ++ l.flatMap f := by
  induction l generalizing init with
  | nil => simp
  | cons a rest ih => simp [ih, List.flatMap_cons]

/-- Membership in the list built by the two loops of `drawWalls`. -/
theorem mem_drawWalls (w h : Int) (wallPos : List Point) (p : Point) :
    p ∈ drawWalls w h wallPos ↔
      p ∈ wallPos ∨
      (∃ x : Nat, x < w.toNat ∧ (p = Point.mk x 0 ∨ p = Point.mk x (h - 1))) ∨
      (∃ y : Nat, 1 ≤ y ∧ y ≤ (h - 2).toNat ∧
        (p = Point.mk 0 y ∨ p = Point.mk (w - 1) y)) := by
  unfold drawWalls
  simp only [foldl_append_flatMap, List.mem_append, List.mem_flatMap, List.mem_range,
    List.mem_range', List.mem_cons, List.mem_singleton, List.not_mem_nil, or_false]
  constructor
  · rintro ((hp | ⟨x, hx, hp⟩) | ⟨y, ⟨i, hi, rfl⟩, hp⟩)
    · exact Or.inl hp
    · exact Or.inr (Or.inl ⟨x, hx, hp⟩)
    · exact Or.inr (Or.inr ⟨1 + 1 * i, by omega, by omega, hp⟩)
  · rintro (hp | ⟨x, hx, hp⟩ | ⟨y, h1, h2, hp⟩)
    · exact Or.inl (Or.inl hp)
    · exact Or.inl (Or.inr ⟨x, hx, hp⟩)
    · exact Or.inr ⟨y, ⟨y - 1, by omega, by omega⟩, hp⟩


/-- What the spawner returns, by induction on a bound on the random numbers.
-/
theorem drawApple_ok_aux (w h : Int) (snakePos : List Point) (s s1 : World)
    (rest : List Nat) : ∀ (n : Nat) (rnd : List Nat), rnd.length ≤ n →
    drawApple w h snakePos s rnd = Except.ok (s1, rest) →
    ∃ c : Point, s1 = { s with applePos := s.applePos ++ [c] } ∧
      1 ≤ c.x ∧ c.x ≤ w - 2 ∧ 1 ≤ c.y ∧ c.y ≤ h - 2 ∧ c ∉ snakePos := by
  intro n
  induction n with
  | zero =>
    intro rnd hlen hok
    match rnd, hlen with
    | [], _ =>
      unfold drawApple at hok
      split at hok <;> cases hok
  | succ k ih =>
    intro rnd hlen hok
    match rnd, hlen with
    | [], _ =>
      unfold drawApple at hok
      split at hok <;> cases hok
    | [_], _ =>
      unfold drawApple at hok
      split at hok
      · cases hok
      · split at hok <;> cases hok
    | rx :: ry :: more, hlen =>
      unfold drawApple at hok
      by_cases hw : w - 2 ≤ 0
      · rw [if_pos hw] at hok
        cases hok
      · rw [if_neg hw] at hok
        by_cases hh : h - 2 ≤ 0
        · rw [if_pos hh] at hok
          cases hok
        · rw [if_neg hh] at hok
          simp only [] at hok
          by_cases hocc : snakePos.any (fun sp => decide
              (Point.mk ((rx : Int) % (w - 2) + 1) ((ry : Int) % (h - 2) + 1) = sp)) = true
          · rw [if_pos hocc] at hok
            exact ih more (by simp at hlen; omega) hok
          · rw [if_neg hocc] at hok
            have hinj := Except.ok.inj hok
            have h1 := (Prod.mk.inj hinj).1
            refine ⟨Point.mk ((rx : Int) % (w - 2) + 1) ((ry : Int) % (h - 2) + 1),
              h1.symm, ?_, ?_, ?_, ?_, ?_⟩
            · have := Int.emod_nonneg (rx : Int) (b := w - 2) (by omega)
              simp only []
              omega
            · have := Int.emod_lt_of_pos (rx : Int) (b := w - 2) (by omega)
              simp only []
              omega
            · have := Int.emod_nonneg (ry : Int) (b := h - 2) (by omega)
              simp only []
              omega
            · have := Int.emod_lt_of_pos (ry : Int) (b := h - 2) (by omega)
              simp only []
              omega
            · intro hmem
              apply hocc
              rw [List.any_eq_true]
              exact ⟨_, hmem, by simp⟩

/-- When the spawner returns it appended one interior cell that is free of the
snake. -/
theorem drawApple_ok (w h : Int) (snakePos : List Point) (s s1 : World)
    (rnd rest : List Nat) (hok : drawApple w h snakePos s rnd = Except.ok (s1, rest)) :
    ∃ c : Point, s1 = { s with applePos := s.applePos ++ [c] } ∧
      1 ≤ c.x ∧ c.x ≤ w - 2 ∧ 1 ≤ c.y ∧ c.y ≤ h - 2 ∧ c ∉ snakePos :=
  drawApple_ok_aux w h snakePos s s1 rest rnd.length rnd (Nat.le_refl _) hok

/-- A tick that keeps running did not meet the crash condition. -/
theorem drawSnakeTick_running_no_crash (w h : Int) (s s1 : World) (rnd rest : List Nat)
    (hd : Point) (tl : List Point) (hs : s.snakePos = hd :: tl)
    (ht : drawSnakeTick w h s rnd = Except.ok (TickResult.running s1 rest)) :
    nextHead s.direction hd ∉ s.wallPos ∧
      nextHead s.direction hd ∉ (hd :: tl).dropLast := by
  rw [← not_or]
  intro hc
  rw [drawSnakeTick_crash w h s rnd hd tl hs hc] at ht
  cases ht

/-- A running tick whose new head is food returns what the spawner returned.
-/
theorem drawSnakeTick_running_eat (w h : Int) (s s1 : World) (rnd rest : List Nat)
    (hd : Point) (tl : List Point) (hs : s.snakePos = hd :: tl)
    (ht : drawSnakeTick w h s rnd = Except.ok (TickResult.running s1 rest))
    (ha : nextHead s.direction hd ∈ s.applePos) :
    drawApple w h (grownWorld s hd).snakePos (grownWorld s hd) rnd = Except.ok (s1, rest) := by
  obtain ⟨hw, hb⟩ := drawSnakeTick_running_no_crash w h s s1 rnd rest hd tl hs ht
  rw [drawSnakeTick_eat w h s rnd hd tl hs hw hb ha] at ht
  split at ht
  · cases ht
  · rename_i s5 rest5 heq
    have hinj := TickResult.running.inj (Except.ok.inj ht)
    rw [heq, hinj.1, hinj.2]

/-- A running tick whose new head is not food returns the moved world. -/
theorem drawSnakeTick_running_plain (w h : Int) (s s1 : World) (rnd rest : List Nat)
    (hd : Point) (tl : List Point) (hs : s.snakePos = hd :: tl)
    (ht : drawSnakeTick w h s rnd = Except.ok (TickResult.running s1 rest))
    (ha : nextHead s.direction hd ∉ s.applePos) :
    s1 = movedWorld s hd ∧ rest = rnd := by
  obtain ⟨hw, hb⟩ := drawSnakeTick_running_no_crash w h s s1 rnd rest hd tl hs ht
  rw [drawSnakeTick_plain w h s rnd hd tl hs hw hb ha] at ht
  have hinj := TickResult.running.inj (Except.ok.inj ht)
  exact ⟨hinj.1.symm, hinj.2.symm⟩

/-- The fields of the world handed to the spawner. -/
theorem grownWorld_fields (s : World) (hd : Point) :
    (grownWorld s hd).snakePos = nextHead s.direction hd :: s.snakePos ∧
    (grownWorld s hd).applePos = s.applePos.erase (nextHead s.direction hd) ∧
    (grownWorld s hd).speed = (increaseSpeed s).speed ∧
    (grownWorld s hd).direction = s.direction ∧
    (grownWorld s hd).wallPos = s.wallPos ∧
    (grownWorld s hd).updatedPosition = false := by
  unfold grownWorld increaseSpeed
  simp only []
  split <;> simp_all

/-- The character commands leave snake, heading, latch and walls alone, and
the food too unless the character is `n`. -/
theorem charCommand_looping (w h : Int) (ev : Event) (s s1 : World) (rnd rest : List Nat)
    (hc : charCommand w h ev s rnd = Except.ok (ControlResult.looping s1 rest)) :
    s1.snakePos = s.snakePos ∧ s1.direction = s.direction ∧
    s1.updatedPosition = s.updatedPosition ∧ s1.wallPos = s.wallPos ∧
    (ev.ch ≠ 'n' → s1.applePos = s.applePos) := by
  unfold charCommand at hc
  by_cases h1 : ev.ch = '-'
  · rw [if_pos h1] at hc
    have hinj := (ControlResult.looping.inj (Except.ok.inj hc)).1
    subst hinj
    simp
  · rw [if_neg h1] at hc
    by_cases h2 : ev.ch = '+'
    · rw [if_pos h2] at hc
      have hinj := (ControlResult.looping.inj (Except.ok.inj hc)).1
      subst hinj
      unfold increaseSpeed
      simp only []
      split <;> simp
    · rw [if_neg h2] at hc
      by_cases h3 : ev.ch = 'n'
      · rw [if_pos h3] at hc
        split at hc
        · cases hc
        · rename_i s5 rest5 heq
          have hinj := (ControlResult.looping.inj (Except.ok.inj hc)).1
          obtain ⟨c, hc5, _⟩ := drawApple_ok _ _ _ _ _ _ _ heq
          subst hinj
          subst hc5
          exact ⟨rfl, rfl, rfl, rfl, fun hn => absurd h3 hn⟩
      · rw [if_neg h3] at hc
        have hinj := (ControlResult.looping.inj (Except.ok.inj hc)).1
        subst hinj
        simp

/-- An input step that keeps looping is an optional guarded turn followed by
the character command. -/
theorem controlSnakeStep_looping (w h : Int) (ev : Event) (s s1 : World)
    (rnd rest : List Nat)
    (hc : controlSnakeStep w h ev s rnd = Except.ok (ControlResult.looping s1 rest)) :
    ∃ s0, (s0 = s ∨ ∃ d, s0 = turn d d.opposite s) ∧
      charCommand w h ev s0 rnd = Except.ok (ControlResult.looping s1 rest) := by
  unfold controlSnakeStep at hc
  split at hc
  · split at hc
    · cases hc
    · exact ⟨_, Or.inr ⟨Direction.Up, rfl⟩, hc⟩
    · exact ⟨_, Or.inr ⟨Direction.Down, rfl⟩, hc⟩
    · exact ⟨_, Or.inr ⟨Direction.Left, rfl⟩, hc⟩
    · exact ⟨_, Or.inr ⟨Direction.Right, rfl⟩, hc⟩
    · exact ⟨_, Or.inl rfl, hc⟩
  · cases hc
  · exact ⟨_, Or.inl rfl, hc⟩

/-- The guarded turn touches heading and latch only. -/
theorem turn_fields (d rev : Direction) (s : World) :
    (turn d rev s).snakePos = s.snakePos ∧ (turn d rev s).wallPos = s.wallPos ∧
    (turn d rev s).applePos = s.applePos ∧ (turn d rev s).speed = s.speed := by
  unfold turn
  split <;> simp

/-- An arrow-key event carries no character command. -/
theorem charCommand_arrow (w h : Int) (d : Direction) (s : World) (rnd : List Nat) :
    charCommand w h (arrowEvent d) s rnd = Except.ok (ControlResult.looping s rnd) := by
  cases d <;> simp [charCommand, arrowEvent]

/-- An arrow-key event is the guarded turn for its direction. -/
theorem controlSnakeStep_arrow (w h : Int) (d : Direction) (s : World) (rnd : List Nat) :
    controlSnakeStep w h (arrowEvent d) s rnd =
      Except.ok (ControlResult.looping (turn d d.opposite s) rnd) := by
  cases d
  · exact charCommand_arrow w h Direction.Up _ rnd
  · exact charCommand_arrow w h Direction.Down _ rnd
  · exact charCommand_arrow w h Direction.Left _ rnd
  · exact charCommand_arrow w h Direction.Right _ rnd

/-- The end of a schedule run from a reachable world is reachable. -/
theorem reachableVia_runSteps (allowed : Event → Prop) (w h : Int) :
    ∀ (steps : List Step) (s s1 : World), ReachableVia allowed w h s →
      stepsAllowed allowed steps → runSteps w h s steps = some s1 →
      ReachableVia allowed w h s1 := by
  intro steps
  induction steps with
  | nil =>
    intro s s1 hr _ hrun
    simp only [runSteps, Option.some.injEq] at hrun
    exact hrun ▸ hr
  | cons st more ih =>
    intro s s1 hr hal hrun
    cases st with
    | tick rnd =>
      simp only [runSteps] at hrun
      split at hrun
      · rename_i s2 rest heq
        exact ih s2 s1 (ReachableVia.tick s s2 rnd rest hr heq) hal hrun
      · cases hrun
    | input ev rnd =>
      simp only [runSteps] at hrun
      split at hrun
      · rename_i s2 rest heq
        exact ih s2 s1 (ReachableVia.input s s2 ev rnd rest hr hal.1 heq) hal.2 hrun
      · cases hrun

/-- The end of a schedule run from the start of `main` is reachable. -/
theorem reachableVia_runGame (allowed : Event → Prop) (w h : Int) (rnd : List Nat)
    (steps : List Step) (s1 : World) (hal : stepsAllowed allowed steps)
    (hrun : runGame w h rnd steps = some s1) : ReachableVia allowed w h s1 := by
  unfold runGame at hrun
  split at hrun
  · rename_i s rest heq
    exact reachableVia_runSteps allowed w h steps s s1
      (ReachableVia.init rnd rest s heq) hal hrun
  · cases hrun

/-- Reachability grows with the set of allowed events. -/
theorem reachableVia_mono (p q : Event → Prop) (hpq : ∀ ev, p ev → q ev) (w h : Int)
    (s : World) (hr : ReachableVia p w h s) : ReachableVia q w h s := by
  induction hr with
  | init rnd rest s hi => exact ReachableVia.init rnd rest s hi
  | tick s s1 rnd rest _ ht ih => exact ReachableVia.tick s s1 rnd rest ih ht
  | input s s1 ev rnd rest _ hal hc ih =>
    exact ReachableVia.input s s1 ev rnd rest ih (hpq ev hal) hc

/-- The world at the launch of the two loops. -/
theorem mainInit_ok (w h : Int) (rnd rest : List Nat) (s : World)
    (hi : mainInit w h rnd = Except.ok (s, rest)) :
    ∃ c : Point, c ∉ [Point.mk (Int.tdiv w 2) (Int.tdiv h 2)] ∧
      s = { direction := Direction.Up,
            snakePos := [Point.mk (Int.tdiv w 2) (Int.tdiv h 2)],
            wallPos := drawWalls w h [], applePos := [c], speed := 200,
            updatedPosition := false } := by
  unfold mainInit at hi
  obtain ⟨c, hc, _, _, _, _, hfree⟩ := drawApple_ok _ _ _ _ _ _ _ hi
  refine ⟨c, ?_, ?_⟩
  · simpa [initialWorld] using hfree
  · rw [hc]
    simp [initialWorld]

/-- A tick that returns started from a non-empty snake. -/
theorem drawSnakeTick_ok_cons (w h : Int) (s : World) (rnd : List Nat) (res : TickResult)
    (ht : drawSnakeTick w h s rnd = Except.ok res) : ∃ hd tl, s.snakePos = hd :: tl := by
  cases hsn : s.snakePos with
  | nil =>
    unfold drawSnakeTick at ht
    rw [hsn] at ht
    simp at ht
  | cons hd tl => exact ⟨hd, tl, rfl⟩

/-- Ticks keep `SnakeInv`. -/
theorem snakeInv_tick (w h : Int) (s s1 : World) (rnd rest : List Nat)
    (hinv : SnakeInv s)
    (ht : drawSnakeTick w h s rnd = Except.ok (TickResult.running s1 rest)) :
    SnakeInv s1 := by
  obtain ⟨hd, tl, hs⟩ := drawSnakeTick_ok_cons w h s rnd _ ht
  obtain ⟨hnd, hlen, hoff⟩ := hinv
  obtain ⟨_, hb⟩ := drawSnakeTick_running_no_crash w h s s1 rnd rest hd tl hs ht
  by_cases ha : nextHead s.direction hd ∈ s.applePos
  · have hsp := drawSnakeTick_running_eat w h s s1 rnd rest hd tl hs ht ha
    obtain ⟨c, hc, _, _, _, _, hfree⟩ := drawApple_ok _ _ _ _ _ _ _ hsp
    obtain ⟨hg1, hg2, _⟩ := grownWorld_fields s hd
    have happle : s.applePos = [nextHead s.direction hd] := by
      match happ : s.applePos, hlen, ha with
      | [a], _, ha' =>
        simp only [List.mem_singleton] at ha'
        rw [ha']
    have hsnake : s1.snakePos = nextHead s.direction hd :: s.snakePos := by
      rw [hc]
      exact hg1
    have hfood : s1.applePos = [c] := by
      rw [hc]
      simp [hg2, happle]
    refine ⟨?_, ?_, ?_⟩
    · rw [hsnake]
      exact List.nodup_cons.2 ⟨hoff _ ha, hnd⟩
    · rw [hfood]
      simp
    · intro a hamem
      rw [hfood, List.mem_singleton] at hamem
      rw [hamem, hsnake, ← hg1]
      exact hfree
  · obtain ⟨h1, _⟩ := drawSnakeTick_running_plain w h s s1 rnd rest hd tl hs ht ha
    subst h1
    refine ⟨?_, hlen, ?_⟩
    · simp only [movedWorld]
      rw [hs]
      refine List.nodup_cons.2 ⟨hb, ?_⟩
      exact List.Nodup.sublist (List.dropLast_sublist _) (hs ▸ hnd)
    · intro a hamem
      simp only [movedWorld] at hamem ⊢
      intro hmem
      rcases List.mem_cons.1 hmem with heq | hin
      · exact ha (heq ▸ hamem)
      · exact hoff a hamem ((List.dropLast_sublist _).subset hin)

/-- Input events other than `n` keep `SnakeInv`. -/
theorem snakeInv_input (w h : Int) (ev : Event) (s s1 : World) (rnd rest : List Nat)
    (hinv : SnakeInv s) (hev : noSpawn ev)
    (hc : controlSnakeStep w h ev s rnd = Except.ok (ControlResult.looping s1 rest)) :
    SnakeInv s1 := by
  obtain ⟨s0, hs0, hcc⟩ := controlSnakeStep_looping w h ev s s1 rnd rest hc
  obtain ⟨h1, _, _, _, h5⟩ := charCommand_looping w h ev s0 s1 rnd rest hcc
  have hsnake : s0.snakePos = s.snakePos := by
    rcases hs0 with rfl | ⟨d, rfl⟩
    · rfl
    · exact (turn_fields d d.opposite s).1
  have hfood : s0.applePos = s.applePos := by
    rcases hs0 with rfl | ⟨d, rfl⟩
    · rfl
    · exact (turn_fields d d.opposite s).2.2.1
  unfold SnakeInv
  rw [h1, h5 hev, hsnake, hfood]
  exact hinv

/-- The invariant `SnakeInv` holds in every state reachable without `n`
events. -/
theorem snakeInv_reachable (w h : Int) (s : World) (hr : ReachableVia noSpawn w h s) :
    SnakeInv s := by
  induction hr with
  | init rnd rest s hi =>
    obtain ⟨c, hc, rfl⟩ := mainInit_ok w h rnd rest s hi
    refine ⟨by simp, by simp, ?_⟩
    intro a ha
    simp only [List.mem_singleton] at ha
    rw [ha]
    exact hc
  | tick s s1 rnd rest _ ht ih => exact snakeInv_tick w h s s1 rnd rest ih ht
  | input s s1 ev rnd rest _ hal hc ih => exact snakeInv_input w h ev s s1 rnd rest ih hal hc

/-- No heading is its own reverse. -/
theorem opposite_ne (d : Direction) : d ≠ d.opposite := by
  cases d <;> simp [Direction.opposite]

/-- Reversing twice gives the heading back. -/
theorem opposite_opposite (d : Direction) : d.opposite.opposite = d := by
  cases d <;> rfl

/-- Two steps return to the start only when the second heading reverses the
first. -/
theorem nextHead_back (d d0 : Direction) (p : Point)
    (hback : nextHead d (nextHead d0 p) = p) : d = d0.opposite := by
  have hx := congrArg Point.x hback
  have hy := congrArg Point.y hback
  cases d <;> cases d0 <;> simp [nextHead, Direction.opposite] at hx hy ⊢ <;> omega

/-- Every running outcome of a tick satisfies `NeckInv`. -/
theorem neckInv_tick (w h : Int) (s s1 : World) (rnd rest : List Nat)
    (ht : drawSnakeTick w h s rnd = Except.ok (TickResult.running s1 rest)) :
    NeckInv s1 := by
  obtain ⟨hd, tl, hs⟩ := drawSnakeTick_ok_cons w h s rnd _ ht
  intro hd1 neck more hs1
  by_cases ha : nextHead s.direction hd ∈ s.applePos
  · have hsp := drawSnakeTick_running_eat w h s s1 rnd rest hd tl hs ht ha
    obtain ⟨c, hc, _⟩ := drawApple_ok _ _ _ _ _ _ _ hsp
    obtain ⟨hg1, _, _, hg4, _, hg6⟩ := grownWorld_fields s hd
    have hsnake : s1.snakePos = nextHead s.direction hd :: hd :: tl := by
      rw [hc, ← hs]
      exact hg1
    have hdir : s1.direction = s.direction := by
      rw [hc]
      exact hg4
    rw [hsnake] at hs1
    have h1 := (List.cons.inj hs1).1
    have h2 := (List.cons.inj (List.cons.inj hs1).2).1
    refine ⟨s.direction, ?_, ?_, fun _ => hdir⟩
    · rw [← h1, ← h2]
    · rw [hdir]
      exact opposite_ne _
  · obtain ⟨h1, _⟩ := drawSnakeTick_running_plain w h s s1 rnd rest hd tl hs ht ha
    subst h1
    simp only [movedWorld] at hs1 ⊢
    rw [hs] at hs1
    cases tl with
    | nil => simp at hs1
    | cons t ts =>
      simp only [List.dropLast_cons₂, List.cons.injEq] at hs1
      refine ⟨s.direction, ?_, opposite_ne _, fun _ => rfl⟩
      rw [← hs1.1, ← hs1.2.1]

/-- The guarded turn keeps `NeckInv`. -/
theorem neckInv_turn (d : Direction) (s : World) (hinv : NeckInv s) :
    NeckInv (turn d d.opposite s) := by
  unfold turn
  split
  · rename_i hacc
    intro hd neck more hs
    simp only [] at hs
    obtain ⟨d0, h1, _, h3⟩ := hinv hd neck more hs
    have hlen : s.snakePos.length ≠ 1 := by
      rw [hs]
      simp
    have hdir : s.direction ≠ d.opposite := by
      rcases hacc.1 with hne | hl
      · exact hne
      · exact absurd hl hlen
    refine ⟨d0, h1, ?_, ?_⟩
    · simp only []
      intro hd0
      apply hdir
      rw [h3 hacc.2, hd0, opposite_opposite]
    · intro hlatch
      simp at hlatch
  · exact hinv

/-- Input events keep `NeckInv`. -/
theorem neckInv_input (w h : Int) (ev : Event) (s s1 : World) (rnd rest : List Nat)
    (hinv : NeckInv s)
    (hc : controlSnakeStep w h ev s rnd = Except.ok (ControlResult.looping s1 rest)) :
    NeckInv s1 := by
  obtain ⟨s0, hs0, hcc⟩ := controlSnakeStep_looping w h ev s s1 rnd rest hc
  obtain ⟨h1, h2, h3, _⟩ := charCommand_looping w h ev s0 s1 rnd rest hcc
  have hinv0 : NeckInv s0 := by
    rcases hs0 with rfl | ⟨d, rfl⟩
    · exact hinv
    · exact neckInv_turn d s hinv
  unfold NeckInv
  rw [h1, h2, h3]
  exact hinv0

/-- The invariant `NeckInv` holds in every reachable state. -/
theorem neckInv_reachable (allowed : Event → Prop) (w h : Int) (s : World)
    (hr : ReachableVia allowed w h s) : NeckInv s := by
  induction hr with
  | init rnd rest s hi =>
    obtain ⟨c, _, rfl⟩ := mainInit_ok w h rnd rest s hi
    intro hd neck more hs
    simp at hs
  | tick s s1 rnd rest _ ht _ => exact neckInv_tick w h s s1 rnd rest ht
  | input s s1 ev rnd rest _ _ hc ih => exact neckInv_input w h ev s s1 rnd rest ih hc

/-- With the latch set the guarded turn changes nothing. -/
theorem turn_latched (d rev : Direction) (s : World) (hl : s.updatedPosition = true) :
    turn d rev s = s := by
  unfold turn
  rw [if_neg]
  intro hacc
  rw [hl] at hacc
  exact absurd hacc.2 (by simp)

/-- The guarded turn either changes nothing or, from a clear latch, sets
heading and latch. -/
theorem turn_cases (d rev : Direction) (s : World) :
    turn d rev s = s ∨
      (s.updatedPosition = false ∧
        turn d rev s = { s with direction := d, updatedPosition := true }) := by
  unfold turn
  split
  · rename_i hacc
    exact Or.inr ⟨hacc.2, rfl⟩
  · exact Or.inl rfl

/-- With the latch set a sequence of arrow keys changes nothing. -/
theorem pressArrows_latched (w h : Int) (keys : List Direction) (s : World)
    (rnd : List Nat) (hl : s.updatedPosition = true) :
    pressArrows w h keys s rnd = Except.ok (ControlResult.looping s rnd) := by
  induction keys with
  | nil => rfl
  | cons d more ih =>
    unfold pressArrows
    rw [controlSnakeStep_arrow, turn_latched d _ s hl]
    exact ih

/-- A sequence of arrow keys, one key at a time. -/
theorem pressArrows_cons (w h : Int) (d : Direction) (more : List Direction) (s : World)
    (rnd : List Nat) :
    pressArrows w h (d :: more) s rnd = pressArrows w h more (turn d d.opposite s) rnd := by
  conv_lhs => unfold pressArrows
  rw [controlSnakeStep_arrow]

/-- The move step clears the latch. -/
theorem moveSnake_latch (s s1 : World) (hm : moveSnake s = Except.ok s1) :
    s1.updatedPosition = false := by
  unfold moveSnake at hm
  split at hm
  · cases hm
  · have hinj := Except.ok.inj hm
    rw [← hinj]

/-- Every outcome of a tick has the latch clear. -/
theorem drawSnakeTick_latch (w h : Int) (s : World) (rnd : List Nat) (res : TickResult)
    (ht : drawSnakeTick w h s rnd = Except.ok res) : res.world.updatedPosition = false := by
  obtain ⟨hd, tl, hs⟩ := drawSnakeTick_ok_cons w h s rnd res ht
  by_cases hc : nextHead s.direction hd ∈ s.wallPos ∨
      nextHead s.direction hd ∈ (hd :: tl).dropLast
  · rw [drawSnakeTick_crash w h s rnd hd tl hs hc] at ht
    rw [← Except.ok.inj ht]
    rfl
  · rw [not_or] at hc
    by_cases ha : nextHead s.direction hd ∈ s.applePos
    · rw [drawSnakeTick_eat w h s rnd hd tl hs hc.1 hc.2 ha] at ht
      split at ht
      · cases ht
      · rename_i s5 rest5 heq
        obtain ⟨c, hc5, _⟩ := drawApple_ok _ _ _ _ _ _ _ heq
        rw [← Except.ok.inj ht]
        simp only [TickResult.world]
        rw [hc5]
        exact (grownWorld_fields s hd).2.2.2.2.2
    · rw [drawSnakeTick_plain w h s rnd hd tl hs hc.1 hc.2 ha] at ht
      rw [← Except.ok.inj ht]
      rfl

/-- The routine `increaseSpeed` touches the interval only. -/
theorem increaseSpeed_fields (s : World) :
    (increaseSpeed s).snakePos = s.snakePos ∧ (increaseSpeed s).applePos = s.applePos ∧
    (increaseSpeed s).wallPos = s.wallPos ∧ (increaseSpeed s).direction = s.direction ∧
    (increaseSpeed s).updatedPosition = s.updatedPosition := by
  unfold increaseSpeed
  simp only []
  split <;> simp

/-- The routine `increaseSpeed` keeps `SpeedInv`. -/
theorem speedInv_increaseSpeed (s : World) (hinv : SpeedInv s) :
    10 ≤ (increaseSpeed s).speed ∧ (10 : Int) ∣ (increaseSpeed s).speed := by
  obtain ⟨h1, k, hk⟩ := hinv
  unfold increaseSpeed
  simp only []
  split
  · exact ⟨le_refl _, dvd_refl _⟩
  · dsimp only
    exact ⟨by omega, ⟨k - 1, by omega⟩⟩

/-- The interval after a character command. -/
theorem charCommand_speed (w h : Int) (ev : Event) (s s1 : World) (rnd rest : List Nat)
    (hc : charCommand w h ev s rnd = Except.ok (ControlResult.looping s1 rest)) :
    s1.speed = s.speed + 10 ∨ s1.speed = (increaseSpeed s).speed ∨ s1.speed = s.speed := by
  unfold charCommand at hc
  by_cases h1 : ev.ch = '-'
  · rw [if_pos h1] at hc
    have hinj := (ControlResult.looping.inj (Except.ok.inj hc)).1
    subst hinj
    exact Or.inl rfl
  · rw [if_neg h1] at hc
    by_cases h2 : ev.ch = '+'
    · rw [if_pos h2] at hc
      have hinj := (ControlResult.looping.inj (Except.ok.inj hc)).1
      subst hinj
      exact Or.inr (Or.inl rfl)
    · rw [if_neg h2] at hc
      by_cases h3 : ev.ch = 'n'
      · rw [if_pos h3] at hc
        split at hc
        · cases hc
        · rename_i s5 rest5 heq
          have hinj := (ControlResult.looping.inj (Except.ok.inj hc)).1
          obtain ⟨c, hc5, _⟩ := drawApple_ok _ _ _ _ _ _ _ heq
          subst hinj
          subst hc5
          exact Or.inr (Or.inr rfl)
      · rw [if_neg h3] at hc
        have hinj := (ControlResult.looping.inj (Except.ok.inj hc)).1
        subst hinj
        exact Or.inr (Or.inr rfl)

/-- Ticks keep `SpeedInv`. -/
theorem speedInv_tick (w h : Int) (s s1 : World) (rnd rest : List Nat)
    (hinv : SpeedInv s)
    (ht : drawSnakeTick w h s rnd = Except.ok (TickResult.running s1 rest)) :
    SpeedInv s1 := by
  obtain ⟨hd, tl, hs⟩ := drawSnakeTick_ok_cons w h s rnd _ ht
  by_cases ha : nextHead s.direction hd ∈ s.applePos
  · have hsp := drawSnakeTick_running_eat w h s s1 rnd rest hd tl hs ht ha
    obtain ⟨c, hc, _⟩ := drawApple_ok _ _ _ _ _ _ _ hsp
    have hspeed : s1.speed = (increaseSpeed s).speed := by
      rw [hc]
      exact (grownWorld_fields s hd).2.2.1
    unfold SpeedInv
    rw [hspeed]
    exact speedInv_increaseSpeed s hinv
  · obtain ⟨h1, _⟩ := drawSnakeTick_running_plain w h s s1 rnd rest hd tl hs ht ha
    rw [h1]
    exact hinv

/-- Input events keep `SpeedInv`. -/
theorem speedInv_input (w h : Int) (ev : Event) (s s1 : World) (rnd rest : List Nat)
    (hinv : SpeedInv s)
    (hc : controlSnakeStep w h ev s rnd = Except.ok (ControlResult.looping s1 rest)) :
    SpeedInv s1 := by
  obtain ⟨s0, hs0, hcc⟩ := controlSnakeStep_looping w h ev s s1 rnd rest hc
  have hinv0 : SpeedInv s0 := by
    rcases hs0 with rfl | ⟨d, rfl⟩
    · exact hinv
    · unfold SpeedInv
      rw [(turn_fields d d.opposite s).2.2.2]
      exact hinv
  unfold SpeedInv
  rcases charCommand_speed w h ev s0 s1 rnd rest hcc with hsp | hsp | hsp
  · rw [hsp]
    obtain ⟨h1, k, hk⟩ := hinv0
    exact ⟨by omega, ⟨k + 1, by omega⟩⟩
  · rw [hsp]
    exact speedInv_increaseSpeed s0 hinv0
  · rw [hsp]
    exact hinv0

/-- The invariant `SpeedInv` holds in every reachable state. -/
theorem speedInv_reachable (allowed : Event → Prop) (w h : Int) (s : World)
    (hr : ReachableVia allowed w h s) : SpeedInv s := by
  induction hr with
  | init rnd rest s hi =>
    obtain ⟨c, _, rfl⟩ := mainInit_ok w h rnd rest s hi
    exact ⟨show (10 : Int) ≤ 200 by decide, ⟨20, show (200 : Int) = 10 * 20 by decide⟩⟩
  | tick s s1 rnd rest _ ht ih => exact speedInv_tick w h s s1 rnd rest ih ht
  | input s s1 ev rnd rest _ _ hc ih => exact speedInv_input w h ev s s1 rnd rest ih hc

/-- The spawner never fails with an index fault. -/
theorem drawApple_error_aux (w h : Int) (snakePos : List Point) (s : World) :
    ∀ (n : Nat) (rnd : List Nat), rnd.length ≤ n →
    drawApple w h snakePos s rnd ≠ Except.error Fault.indexOutOfRange := by
  intro n
  induction n with
  | zero =>
    intro rnd hlen herr
    match rnd, hlen with
    | [], _ =>
      unfold drawApple at herr
      split at herr <;> cases herr
  | succ k ih =>
    intro rnd hlen herr
    match rnd, hlen with
    | [], _ =>
      unfold drawApple at herr
      split at herr <;> cases herr
    | [_], _ =>
      unfold drawApple at herr
      split at herr
      · cases herr
      · split at herr <;> cases herr
    | rx :: ry :: more, hlen =>
      unfold drawApple at herr
      split at herr
      · cases herr
      · split at herr
        · cases herr
        · simp only [] at herr
          split at herr
          · exact ih more (by simp at hlen; omega) herr
          · cases herr

/-- A tick from a non-empty snake never fails with an index fault. -/
theorem drawSnakeTick_no_index_fault (w h : Int) (s : World) (rnd : List Nat)
    (hd : Point) (tl : List Point) (hs : s.snakePos = hd :: tl) :
    drawSnakeTick w h s rnd ≠ Except.error Fault.indexOutOfRange := by
  intro herr
  by_cases hc : nextHead s.direction hd ∈ s.wallPos ∨
      nextHead s.direction hd ∈ (hd :: tl).dropLast
  · rw [drawSnakeTick_crash w h s rnd hd tl hs hc] at herr
    cases herr
  · rw [not_or] at hc
    by_cases ha : nextHead s.direction hd ∈ s.applePos
    · rw [drawSnakeTick_eat w h s rnd hd tl hs hc.1 hc.2 ha] at herr
      split at herr
      · rename_i e heq
        have he : e = Fault.indexOutOfRange := Except.error.inj herr
        rw [he] at heq
        exact drawApple_error_aux w h _ _ rnd.length rnd (Nat.le_refl _) heq
      · cases herr
    · rw [drawSnakeTick_plain w h s rnd hd tl hs hc.1 hc.2 ha] at herr
      cases herr

/-- The snake of every running outcome of a tick starts with the new head. -/
theorem drawSnakeTick_running_snake (w h : Int) (s s1 : World) (rnd rest : List Nat)
    (hd : Point) (tl : List Point) (hs : s.snakePos = hd :: tl)
    (ht : drawSnakeTick w h s rnd = Except.ok (TickResult.running s1 rest)) :
    (s1.snakePos = nextHead s.direction hd :: (hd :: tl).dropLast ∨
      s1.snakePos = nextHead s.direction hd :: hd :: tl) ∧ s1.wallPos = s.wallPos := by
  by_cases ha : nextHead s.direction hd ∈ s.applePos
  · have hsp := drawSnakeTick_running_eat w h s s1 rnd rest hd tl hs ht ha
    obtain ⟨c, hc, _⟩ := drawApple_ok _ _ _ _ _ _ _ hsp
    obtain ⟨hg1, _, _, _, hg5, _⟩ := grownWorld_fields s hd
    refine ⟨Or.inr ?_, ?_⟩
    · rw [hc, ← hs]
      exact hg1
    · rw [hc]
      exact hg5
  · obtain ⟨h1, _⟩ := drawSnakeTick_running_plain w h s s1 rnd rest hd tl hs ht ha
    subst h1
    refine ⟨Or.inl ?_, rfl⟩
    simp only [movedWorld]
    rw [hs]

/-- An input step leaves snake and walls alone. -/
theorem controlSnakeStep_snake (w h : Int) (ev : Event) (s s1 : World) (rnd rest : List Nat)
    (hc : controlSnakeStep w h ev s rnd = Except.ok (ControlResult.looping s1 rest)) :
    s1.snakePos = s.snakePos ∧ s1.wallPos = s.wallPos := by
  obtain ⟨s0, hs0, hcc⟩ := controlSnakeStep_looping w h ev s s1 rnd rest hc
  obtain ⟨h1, _, _, h4, _⟩ := charCommand_looping w h ev s0 s1 rnd rest hcc
  rcases hs0 with rfl | ⟨d, rfl⟩
  · exact ⟨h1, h4⟩
  · exact ⟨h1.trans (turn_fields d d.opposite s).1, h4.trans (turn_fields d d.opposite s).2.1⟩

/-- The snake of every reachable state is non-empty. -/
theorem snake_ne_nil_reachable (allowed : Event → Prop) (w h : Int) (s : World)
    (hr : ReachableVia allowed w h s) : ∃ hd tl, s.snakePos = hd :: tl := by
  induction hr with
  | init rnd rest s hi =>
    obtain ⟨c, _, rfl⟩ := mainInit_ok w h rnd rest s hi
    exact ⟨_, _, rfl⟩
  | tick s s1 rnd rest _ ht _ =>
    obtain ⟨hd, tl, hs⟩ := drawSnakeTick_ok_cons w h s rnd _ ht
    rcases (drawSnakeTick_running_snake w h s s1 rnd rest hd tl hs ht).1 with h1 | h1
    · exact ⟨_, _, h1⟩
    · exact ⟨_, _, h1⟩
  | input s s1 ev rnd rest _ _ hc ih =>
    obtain ⟨hd, tl, hs⟩ := ih
    exact ⟨hd, tl, (controlSnakeStep_snake w h ev s s1 rnd rest hc).1.trans hs⟩

/-- The tick ends in Over exactly when the new head is a wall cell or a cell of
the old snake without its last element. -/
theorem drawSnakeTick_over_iff (w h : Int) (s : World) (rnd : List Nat) (hd : Point)
    (tl : List Point) (hs : s.snakePos = hd :: tl) :
    (∃ s1, drawSnakeTick w h s rnd = Except.ok (TickResult.over s1)) ↔
      (nextHead s.direction hd ∈ s.wallPos ∨
        nextHead s.direction hd ∈ (hd :: tl).dropLast) := by
  constructor
  · rintro ⟨s1, hs1⟩
    by_contra hno
    rw [not_or] at hno
    by_cases ha : nextHead s.direction hd ∈ s.applePos
    · rw [drawSnakeTick_eat w h s rnd hd tl hs hno.1 hno.2 ha] at hs1
      split at hs1 <;> cases hs1
    · rw [drawSnakeTick_plain w h s rnd hd tl hs hno.1 hno.2 ha] at hs1
      cases hs1
  · intro hc
    exact ⟨movedWorld s hd, drawSnakeTick_crash w h s rnd hd tl hs hc⟩

/-- The cells on the border of the `w` x `h` playfield are in the wall list. -/
theorem border_mem_drawWalls (w h x y : Int)
    (hb : (0 ≤ x ∧ x < w ∧ (y = 0 ∨ y = h - 1)) ∨
      ((x = 0 ∨ x = w - 1) ∧ 1 ≤ y ∧ y ≤ h - 2)) :
    Point.mk x y ∈ drawWalls w h [] := by
  rw [mem_drawWalls]
  right
  rcases hb with ⟨hx0, hxw, hy⟩ | ⟨hx, hy1, hy2⟩
  · left
    refine ⟨x.toNat, by omega, ?_⟩
    have hcast : ((x.toNat : Nat) : Int) = x := Int.toNat_of_nonneg hx0
    rw [hcast]
    rcases hy with hy | hy
    · exact Or.inl (by rw [hy])
    · exact Or.inr (by rw [hy])
  · right
    refine ⟨y.toNat, by omega, by omega, ?_⟩
    have hcast : ((y.toNat : Nat) : Int) = y := Int.toNat_of_nonneg (by omega)
    rw [hcast]
    rcases hx with hx | hx
    · exact Or.inl (by rw [hx])
    · exact Or.inr (by rw [hx])

/-- An interior cell is in none of the four wall lines. -/
theorem interior_not_mem_drawWalls (w h : Int) (c : Point)
    (hx1 : 1 ≤ c.x) (hx2 : c.x ≤ w - 2) (hy1 : 1 ≤ c.y) (hy2 : c.y ≤ h - 2) :
    c ∉ drawWalls w h [] := by
  intro hwall
  rw [mem_drawWalls] at hwall
  rcases hwall with hnil | ⟨x, _, hp | hp⟩ | ⟨y, _, _, hp | hp⟩
  · exact absurd hnil (List.not_mem_nil _)
  · have hy := congrArg Point.y hp
    simp only [] at hy
    omega
  · have hy := congrArg Point.y hp
    simp only [] at hy
    omega
  · have hx := congrArg Point.x hp
    simp only [] at hx
    omega
  · have hx := congrArg Point.x hp
    simp only [] at hx
    omega

/-- A neighbour of an interior cell that is not a wall cell is interior. -/
theorem interior_nextHead (w h : Int) (d : Direction) (p : Point)
    (hp : 1 ≤ p.x ∧ p.x ≤ w - 2 ∧ 1 ≤ p.y ∧ p.y ≤ h - 2)
    (hfree : nextHead d p ∉ drawWalls w h []) :
    1 ≤ (nextHead d p).x ∧ (nextHead d p).x ≤ w - 2 ∧
      1 ≤ (nextHead d p).y ∧ (nextHead d p).y ≤ h - 2 := by
  obtain ⟨hx1, hx2, hy1, hy2⟩ := hp
  by_contra hout
  apply hfree
  cases d
  · simp only [nextHead] at hout ⊢
    exact border_mem_drawWalls w h _ _ (Or.inl ⟨by omega, by omega, Or.inl (by omega)⟩)
  · simp only [nextHead] at hout ⊢
    exact border_mem_drawWalls w h _ _ (Or.inl ⟨by omega, by omega, Or.inr (by omega)⟩)
  · simp only [nextHead] at hout ⊢
    exact border_mem_drawWalls w h _ _ (Or.inr ⟨Or.inl (by omega), by omega, by omega⟩)
  · simp only [nextHead] at hout ⊢
    exact border_mem_drawWalls w h _ _ (Or.inr ⟨Or.inr (by omega), by omega, by omega⟩)

/-- Ticks keep `InteriorInv`. -/
theorem interiorInv_tick (w h : Int) (s s1 : World) (rnd rest : List Nat)
    (hinv : InteriorInv w h s)
    (ht : drawSnakeTick w h s rnd = Except.ok (TickResult.running s1 rest)) :
    InteriorInv w h s1 := by
  obtain ⟨hd, tl, hs⟩ := drawSnakeTick_ok_cons w h s rnd _ ht
  obtain ⟨hwalls, hin⟩ := hinv
  obtain ⟨hnw, _⟩ := drawSnakeTick_running_no_crash w h s s1 rnd rest hd tl hs ht
  obtain ⟨hsnake, hw1⟩ := drawSnakeTick_running_snake w h s s1 rnd rest hd tl hs ht
  have hhead := interior_nextHead w h s.direction hd
    (hin hd (by rw [hs]; exact List.mem_cons_self _ _)) (hwalls ▸ hnw)
  refine ⟨hw1.trans hwalls, ?_⟩
  intro p hp
  rcases hsnake with h1 | h1
  · rw [h1] at hp
    rcases List.mem_cons.1 hp with heq | hmem
    · rw [heq]
      exact hhead
    · exact hin p (hs ▸ (List.dropLast_sublist _).subset hmem)
  · rw [h1] at hp
    rcases List.mem_cons.1 hp with heq | hmem
    · rw [heq]
      exact hhead
    · exact hin p (hs ▸ hmem)

/-- The invariant `InteriorInv` holds in every state reachable on a playfield
of at least 3 x 3. -/
theorem interiorInv_reachable (allowed : Event → Prop) (w h : Int) (hw : 3 ≤ w)
    (hh : 3 ≤ h) (s : World) (hr : ReachableVia allowed w h s) : InteriorInv w h s := by
  induction hr with
  | init rnd rest s hi =>
    obtain ⟨c, _, rfl⟩ := mainInit_ok w h rnd rest s hi
    refine ⟨rfl, ?_⟩
    intro p hp
    simp only [List.mem_singleton] at hp
    rw [hp]
    have hwd : Int.tdiv w 2 = w / 2 := Int.tdiv_eq_ediv (by omega) (by decide)
    have hhd : Int.tdiv h 2 = h / 2 := Int.tdiv_eq_ediv (by omega) (by decide)
    simp only [hwd, hhd]
    omega
  | tick s s1 rnd rest _ ht ih => exact interiorInv_tick w h s s1 rnd rest ih ht
  | input s s1 ev rnd rest _ _ hc ih =>
    obtain ⟨h1, h2⟩ := controlSnakeStep_snake w h ev s s1 rnd rest hc
    unfold InteriorInv
    rw [h1, h2]
    exact ih

/-- The list built by `drawWalls`: the old list, then the pairs of the first
loop, then the pairs of the second loop. -/
theorem drawWalls_eq (w h : Int) (wallPos : List Point) :
    drawWalls w h wallPos =
      wallPos ++
        (List.range w.toNat).flatMap
          (fun x : Nat => [Point.mk (x : Int) 0, Point.mk (x : Int) (h - 1)]) ++
        (List.range' 1 (h - 2).toNat).flatMap
          (fun y : Nat => [Point.mk 0 (y : Int), Point.mk (w - 1) (y : Int)]) := by
  unfold drawWalls
  simp only [foldl_append_flatMap]

/-- A loop that appends two cells per round builds a list twice as long as
the range it runs over. -/
theorem length_flatMap_pair {α : Type} (f : α → List Point) (l : List α)
    (hf : ∀ a, (f a).length = 2) : (l.flatMap f).length = 2 * l.length := by
  induction l with
  | nil => rfl
  | cons a rest ih =>
    rw [List.flatMap_cons, List.length_append, hf, ih, List.length_cons]
    omega

/-- The pairs appended by the first loop of `drawWalls` are pairwise different
when `h ≠ 1`. -/
theorem nodup_wall_rows (h : Int) (hh : h ≠ 1) (n : Nat) :
    ((List.range n).flatMap
      (fun x : Nat => [Point.mk (x : Int) 0, Point.mk (x : Int) (h - 1)])).Nodup := by
  rw [List.nodup_flatMap]
  constructor
  · intro x _
    simp only [List.nodup_cons, List.mem_singleton, Point.mk.injEq, true_and,
      List.not_mem_nil, not_false_eq_true, List.nodup_nil, and_true]
    omega
  · apply List.Nodup.pairwise_of_forall_ne (List.nodup_range n)
    intro a _ b _ hab
    simp only [Function.onFun]
    rw [List.disjoint_left]
    intro p hpa hpb
    simp only [List.mem_cons, List.mem_singleton, List.not_mem_nil, or_false] at hpa hpb
    apply hab
    rcases hpa with rfl | rfl <;> rcases hpb with hb | hb <;>
      · have hx := congrArg Point.x hb
        simp only [] at hx
        omega

/-- The pairs appended by the second loop of `drawWalls` are pairwise different
when `w ≠ 1`. -/
theorem nodup_wall_columns (w : Int) (hw : w ≠ 1) (n : Nat) :
    ((List.range' 1 n).flatMap
      (fun y : Nat => [Point.mk 0 (y : Int), Point.mk (w - 1) (y : Int)])).Nodup := by
  rw [List.nodup_flatMap]
  constructor
  · intro y _
    simp only [List.nodup_cons, List.mem_singleton, Point.mk.injEq, and_true,
      List.not_mem_nil, not_false_eq_true, List.nodup_nil]
    omega
  · apply List.Nodup.pairwise_of_forall_ne (List.nodup_range' 1 n)
    intro a _ b _ hab
    simp only [Function.onFun]
    rw [List.disjoint_left]
    intro p hpa hpb
    simp only [List.mem_cons, List.mem_singleton, List.not_mem_nil, or_false] at hpa hpb
    apply hab
    rcases hpa with rfl | rfl <;> rcases hpb with hb | hb <;>
      · have hy := congrArg Point.y hb
        simp only [] at hy
        omega

/-- The food list after a character command: unchanged, or one cell that is
no segment of the snake appended. -/
theorem charCommand_food (w h : Int) (ev : Event) (s s1 : World) (rnd rest : List Nat)
    (hc : charCommand w h ev s rnd = Except.ok (ControlResult.looping s1 rest)) :
    s1.applePos = s.applePos ∨
      ∃ c : Point, c ∉ s.snakePos ∧ s1.applePos = s.applePos ++ [c] := by
  by_cases h3 : ev.ch = 'n'
  · unfold charCommand at hc
    rw [if_neg (by rw [h3]; decide), if_neg (by rw [h3]; decide), if_pos h3] at hc
    split at hc
    · cases hc
    · rename_i s5 rest5 heq
      have hinj := (ControlResult.looping.inj (Except.ok.inj hc)).1
      obtain ⟨c, hc5, _, _, _, _, hfree⟩ := drawApple_ok _ _ _ _ _ _ _ heq
      subst hinj
      subst hc5
      exact Or.inr ⟨c, hfree, rfl⟩
  · exact Or.inl ((charCommand_looping w h ev s s1 rnd rest hc).2.2.2.2 h3)

/-- A tick that starts from a food list without repeated entry keeps
`OffSnakeInv`. -/
theorem offSnakeInv_tick (w h : Int) (s s1 : World) (rnd rest : List Nat)
    (hinv : OffSnakeInv s) (hfood : s.applePos.Nodup)
    (ht : drawSnakeTick w h s rnd = Except.ok (TickResult.running s1 rest)) :
    OffSnakeInv s1 := by
  obtain ⟨hd, tl, hs⟩ := drawSnakeTick_ok_cons w h s rnd _ ht
  obtain ⟨hnd, hoff⟩ := hinv
  obtain ⟨_, hb⟩ := drawSnakeTick_running_no_crash w h s s1 rnd rest hd tl hs ht
  by_cases ha : nextHead s.direction hd ∈ s.applePos
  · have hsp := drawSnakeTick_running_eat w h s s1 rnd rest hd tl hs ht ha
    obtain ⟨c, hc, _, _, _, _, hfree⟩ := drawApple_ok _ _ _ _ _ _ _ hsp
    obtain ⟨hg1, hg2, _⟩ := grownWorld_fields s hd
    have hsnake : s1.snakePos = nextHead s.direction hd :: s.snakePos := by
      rw [hc]
      exact hg1
    have happle : s1.applePos = s.applePos.erase (nextHead s.direction hd) ++ [c] := by
      rw [hc]
      simp [hg2]
    refine ⟨?_, ?_⟩
    · rw [hsnake]
      exact List.nodup_cons.2 ⟨hoff _ ha, hnd⟩
    · intro a hamem
      rw [happle, List.mem_append, List.mem_singleton] at hamem
      rcases hamem with hold | hnew
      · rw [hfood.mem_erase_iff] at hold
        rw [hsnake]
        intro hmem
        rcases List.mem_cons.1 hmem with heq | hin
        · exact hold.1 heq
        · exact hoff a hold.2 hin
      · rw [hnew, hsnake, ← hg1]
        exact hfree
  · obtain ⟨h1, _⟩ := drawSnakeTick_running_plain w h s s1 rnd rest hd tl hs ht ha
    subst h1
    refine ⟨?_, ?_⟩
    · simp only [movedWorld]
      rw [hs]
      refine List.nodup_cons.2 ⟨hb, ?_⟩
      exact List.Nodup.sublist (List.dropLast_sublist _) (hs ▸ hnd)
    · intro a hamem
      simp only [movedWorld] at hamem ⊢
      intro hmem
      rcases List.mem_cons.1 hmem with heq | hin
      · exact ha (heq ▸ hamem)
      · exact hoff a hamem ((List.dropLast_sublist _).subset hin)

/-- Every input event, `n` included, keeps `OffSnakeInv`. -/
theorem offSnakeInv_input (w h : Int) (ev : Event) (s s1 : World) (rnd rest : List Nat)
    (hinv : OffSnakeInv s)
    (hc : controlSnakeStep w h ev s rnd = Except.ok (ControlResult.looping s1 rest)) :
    OffSnakeInv s1 := by
  obtain ⟨s0, hs0, hcc⟩ := controlSnakeStep_looping w h ev s s1 rnd rest hc
  obtain ⟨h1, _⟩ := charCommand_looping w h ev s0 s1 rnd rest hcc
  have hsnake : s0.snakePos = s.snakePos := by
    rcases hs0 with rfl | ⟨d, rfl⟩
    · rfl
    · exact (turn_fields d d.opposite s).1
  have hfood : s0.applePos = s.applePos := by
    rcases hs0 with rfl | ⟨d, rfl⟩
    · rfl
    · exact (turn_fields d d.opposite s).2.2.1
  obtain ⟨hnd, hoff⟩ := hinv
  refine ⟨by rw [h1, hsnake]; exact hnd, ?_⟩
  intro a hamem
  rw [h1, hsnake]
  rcases charCommand_food w h ev s0 s1 rnd rest hcc with hsame | ⟨c, hfree, happ⟩
  · rw [hsame, hfood] at hamem
    exact hoff a hamem
  · rw [happ, hfood, List.mem_append, List.mem_singleton] at hamem
    rcases hamem with hold | hnew
    · exact hoff a hold
    · rw [hnew, ← hsnake]
      exact hfree

/-- The invariant `OffSnakeInv` holds in every state reached through ticks that
start from a food list without repeated entry. -/
theorem offSnakeInv_reachable (w h : Int) (s : World)
    (hr : ReachableDistinctFood w h s) : OffSnakeInv s := by
  induction hr with
  | init rnd rest s hi =>
    obtain ⟨c, hc, rfl⟩ := mainInit_ok w h rnd rest s hi
    refine ⟨by simp, ?_⟩
    intro a ha
    simp only [List.mem_singleton] at ha
    rw [ha]
    exact hc
  | tick s s1 rnd rest _ hfood ht ih => exact offSnakeInv_tick w h s s1 rnd rest ih hfood ht
  | input s s1 ev rnd rest _ hc ih => exact offSnakeInv_input w h ev s s1 rnd rest ih hc

/-- Without `n` events every tick starts from a food list without repeated
entry: the list never holds more than one apple. -/
theorem reachableDistinctFood_of_noSpawn (w h : Int) (s : World)
    (hr : ReachableVia noSpawn w h s) : ReachableDistinctFood w h s := by
  induction hr with
  | init rnd rest s hi => exact ReachableDistinctFood.init rnd rest s hi
  | tick s s1 rnd rest hprev ht ih =>
    have hlen := (snakeInv_reachable w h s hprev).2.1
    have hfood : s.applePos.Nodup := by
      match happ : s.applePos, hlen with
      | [], _ => exact List.nodup_nil
      | [a], _ => exact List.nodup_singleton a
    exact ReachableDistinctFood.tick s s1 rnd rest ih hfood ht
  | input s s1 ev rnd rest _ _ hc ih => exact ReachableDistinctFood.input s s1 ev rnd rest ih hc

/-- The end of a schedule that passes `distinctFoodRun` is reachable through
ticks that start from a food list without repeated entry. -/
theorem reachableDistinctFood_runSteps (w h : Int) :
    ∀ (steps : List Step) (s s1 : World), ReachableDistinctFood w h s →
      distinctFoodRun w h s steps = true → runSteps w h s steps = some s1 →
      ReachableDistinctFood w h s1 := by
  intro steps
  induction steps with
  | nil =>
    intro s s1 hr _ hrun
    simp only [runSteps, Option.some.injEq] at hrun
    exact hrun ▸ hr
  | cons st more ih =>
    intro s s1 hr hchk hrun
    cases st with
    | tick rnd =>
      simp only [runSteps] at hrun
      simp only [distinctFoodRun, Bool.and_eq_true, decide_eq_true_eq] at hchk
      split at hrun
      · rename_i s2 rest heq
        rw [heq] at hchk
        exact ih s2 s1 (ReachableDistinctFood.tick s s2 rnd rest hr hchk.1 heq) hchk.2 hrun
      · cases hrun
    | input ev rnd =>
      simp only [runSteps] at hrun
      simp only [distinctFoodRun] at hchk
      split at hrun
      · rename_i s2 rest heq
        rw [heq] at hchk
        exact ih s2 s1 (ReachableDistinctFood.input s s2 ev rnd rest hr heq) hchk hrun
      · cases hrun

/-- The end of a schedule run from the start of `main` that passes
`distinctFoodGame` is reachable through ticks that start from a food list
without repeated entry. -/
theorem reachableDistinctFood_runGame (w h : Int) (rnd : List Nat) (steps : List Step)
    (s1 : World) (hchk : distinctFoodGame w h rnd steps = true)
    (hrun : runGame w h rnd steps = some s1) : ReachableDistinctFood w h s1 := by
  unfold runGame at hrun
  unfold distinctFoodGame at hchk
  split at hrun
  · rename_i s rest heq
    rw [heq] at hchk
    exact reachableDistinctFood_runSteps w h steps s s1
      (ReachableDistinctFood.init rnd rest s heq) hchk hrun
  · cases hrun
/-! ## C1 -/

/-- C1, as stated, fails: it is not the case that for every wall set, non-empty
snake and heading the tick ends in Over exactly when the new head is a wall
cell or a segment of the old snake at an index of at least 1. On `tailChaser`
the new head is the old segment at index 3 and the tick keeps running. -/
theorem C1_old_tail_counterexample :
    ¬ ∀ (w h : Int) (s : World) (rnd : List Nat) (hd : Point) (tl : List Point),
      s.snakePos = hd :: tl →
      ((∃ s1, drawSnakeTick w h s rnd = Except.ok (TickResult.over s1)) ↔
        (nextHead s.direction hd ∈ s.wallPos ∨
          ∃ i, 1 ≤ i ∧ s.snakePos[i]? = some (nextHead s.direction hd))) := by
  intro hall
  have hiff := hall 6 6 tailChaser [] (Point.mk 2 2)
    [Point.mk 2 3, Point.mk 3 3, Point.mk 3 2] rfl
  obtain ⟨s1, hs1⟩ := hiff.2 (Or.inr ⟨3, by decide, rfl⟩)
  have hrun : drawSnakeTick 6 6 tailChaser [] = Except.ok (TickResult.running
      { tailChaser with
        snakePos := [Point.mk 3 2, Point.mk 2 2, Point.mk 2 3, Point.mk 3 3] } []) := rfl
  rw [hrun] at hs1
  cases hs1

/-- C1, amended: for every wall set, every non-empty snake and every heading,
the tick ends in Over if and only if the new head is a wall cell or equals a
segment of the old snake at an index `i` with `1 ≤ i` and `i + 1 < length`,
that is, the old body without the old head and without the old tail (the check
runs on the shifted snake). -/
theorem C1_crash_iff_wall_or_inner_segment (w h : Int) (s : World) (rnd : List Nat)
    (hd : Point) (tl : List Point) (hs : s.snakePos = hd :: tl) :
    (∃ s1, drawSnakeTick w h s rnd = Except.ok (TickResult.over s1)) ↔
      (nextHead s.direction hd ∈ s.wallPos ∨
        ∃ i, 1 ≤ i ∧ i + 1 < s.snakePos.length ∧
          s.snakePos[i]? = some (nextHead s.direction hd)) := by
  have hbody : nextHead s.direction hd ∈ (hd :: tl).dropLast ↔
      ∃ i, 1 ≤ i ∧ i + 1 < s.snakePos.length ∧
        s.snakePos[i]? = some (nextHead s.direction hd) := by
    rw [mem_dropLast_iff, hs]
    constructor
    · rintro ⟨i, hi, hget⟩
      refine ⟨i, ?_, hi, hget⟩
      cases i with
      | zero =>
        simp only [List.getElem?_cons_zero, Option.some.injEq] at hget
        exact absurd hget.symm (nextHead_ne _ _)
      | succ j => omega
    · rintro ⟨i, _, hi, hget⟩
      exact ⟨i, hi, hget⟩
  rw [← hbody]
  constructor
  · rintro ⟨s1, hs1⟩
    by_contra hno
    rw [not_or] at hno
    by_cases ha : nextHead s.direction hd ∈ s.applePos
    · rw [drawSnakeTick_eat w h s rnd hd tl hs hno.1 hno.2 ha] at hs1
      split at hs1
      · cases hs1
      · cases hs1
    · rw [drawSnakeTick_plain w h s rnd hd tl hs hno.1 hno.2 ha] at hs1
      cases hs1
  · intro hc
    exact ⟨movedWorld s hd, drawSnakeTick_crash w h s rnd hd tl hs hc⟩

/-- C1, amended, on two snakes of the 6 x 6 playfield. On `selfBiter` the new
head is the old segment at index 3 of 5 and the tick ends in Over. On
`tailChaser` the new head is the old segment at index 3 of 4, the old tail: the
condition of the claim as first stated holds there, no index of the amended
range does, and the tick keeps running. -/
theorem C1_crash_iff_wall_or_inner_segment_witness :
    (selfBiter.snakePos =
        Point.mk 2 2 :: [Point.mk 2 3, Point.mk 3 3, Point.mk 3 2, Point.mk 3 1] ∧
      selfBiter.snakePos[3]? = some (nextHead selfBiter.direction (Point.mk 2 2)) ∧
      ((∃ s1, drawSnakeTick 6 6 selfBiter [] = Except.ok (TickResult.over s1)) ↔
        (nextHead selfBiter.direction (Point.mk 2 2) ∈ selfBiter.wallPos ∨
          ∃ i, 1 ≤ i ∧ i + 1 < selfBiter.snakePos.length ∧
            selfBiter.snakePos[i]? = some (nextHead selfBiter.direction (Point.mk 2 2)))) ∧
      ∃ s1, drawSnakeTick 6 6 selfBiter [] = Except.ok (TickResult.over s1)) ∧
    (tailChaser.snakePos = Point.mk 2 2 :: [Point.mk 2 3, Point.mk 3 3, Point.mk 3 2] ∧
      tailChaser.snakePos[3]? = some (nextHead tailChaser.direction (Point.mk 2 2)) ∧
      ((∃ s1, drawSnakeTick 6 6 tailChaser [] = Except.ok (TickResult.over s1)) ↔
        (nextHead tailChaser.direction (Point.mk 2 2) ∈ tailChaser.wallPos ∨
          ∃ i, 1 ≤ i ∧ i + 1 < tailChaser.snakePos.length ∧
            tailChaser.snakePos[i]? = some (nextHead tailChaser.direction (Point.mk 2 2)))) ∧
      ¬ ∃ s1, drawSnakeTick 6 6 tailChaser [] = Except.ok (TickResult.over s1)) :=
  have hbite := C1_crash_iff_wall_or_inner_segment 6 6 selfBiter [] (Point.mk 2 2)
    [Point.mk 2 3, Point.mk 3 3, Point.mk 3 2, Point.mk 3 1] rfl
  have hchase := C1_crash_iff_wall_or_inner_segment 6 6 tailChaser [] (Point.mk 2 2)
    [Point.mk 2 3, Point.mk 3 3, Point.mk 3 2] rfl
  have hinner : ¬ (nextHead tailChaser.direction (Point.mk 2 2) ∈ tailChaser.wallPos ∨
      ∃ i, 1 ≤ i ∧ i + 1 < tailChaser.snakePos.length ∧
        tailChaser.snakePos[i]? = some (nextHead tailChaser.direction (Point.mk 2 2))) := by
    rintro (hwall | ⟨i, h1, h2, hget⟩)
    · revert hwall
      decide
    · have hlen : tailChaser.snakePos.length = 4 := rfl
      rw [hlen] at h2
      have hi : i = 1 ∨ i = 2 := by omega
      rcases hi with rfl | rfl
      · revert hget
        decide
      · revert hget
        decide
  ⟨⟨rfl, rfl, hbite, hbite.2 (Or.inr ⟨3, by decide, by decide, rfl⟩)⟩,
    ⟨rfl, rfl, hchase, fun hover => hinner (hchase.1 hover)⟩⟩

/-! ## C2 -/

/-- C2: for `w ≥ 3` and `h ≥ 3`, starting from an empty wall list, `(x, y)` is
in the list built by `drawWalls` if and only if `0 ≤ x < w` and (`y = 0` or
`y = h-1`), or (`x = 0` or `x = w-1`) and `1 ≤ y ≤ h-2`. -/
theorem C2_drawWalls_mem_iff (w h : Int) (hw : 3 ≤ w) (hh : 3 ≤ h) (x y : Int) :
    Point.mk x y ∈ drawWalls w h [] ↔
      (0 ≤ x ∧ x < w ∧ (y = 0 ∨ y = h - 1)) ∨
      ((x = 0 ∨ x = w - 1) ∧ 1 ≤ y ∧ y ≤ h - 2) := by
  rw [mem_drawWalls]
  simp only [List.not_mem_nil, false_or, Point.mk.injEq]
  constructor
  · rintro (⟨a, ha, hp⟩ | ⟨b, hb1, hb2, hp⟩)
    · left
      rcases hp with ⟨rfl, hy⟩ | ⟨rfl, hy⟩
      · exact ⟨by omega, by omega, Or.inl hy⟩
      · exact ⟨by omega, by omega, Or.inr hy⟩
    · right
      rcases hp with ⟨hx, rfl⟩ | ⟨hx, rfl⟩
      · exact ⟨Or.inl hx, by omega, by omega⟩
      · exact ⟨Or.inr hx, by omega, by omega⟩
  · rintro (⟨hx0, hxw, hy⟩ | ⟨hx, hy1, hy2⟩)
    · left
      refine ⟨x.toNat, by omega, ?_⟩
      have hcast : ((x.toNat : Nat) : Int) = x := Int.toNat_of_nonneg hx0
      rcases hy with hy | hy
      · exact Or.inl ⟨hcast.symm, hy⟩
      · exact Or.inr ⟨hcast.symm, hy⟩
    · right
      refine ⟨y.toNat, by omega, by omega, ?_⟩
      have hcast : ((y.toNat : Nat) : Int) = y := Int.toNat_of_nonneg (by omega)
      rcases hx with hx | hx
      · exact Or.inl ⟨hx, hcast.symm⟩
      · exact Or.inr ⟨hx, hcast.symm⟩

/-- C2 on the 5 x 5 playfield at the cell `(4, 2)` of the right wall. -/
theorem C2_drawWalls_mem_iff_witness :
    (3 : Int) ≤ 5 ∧ (3 : Int) ≤ 5 ∧
    (Point.mk 4 2 ∈ drawWalls 5 5 [] ↔
      (0 ≤ (4 : Int) ∧ (4 : Int) < 5 ∧ ((2 : Int) = 0 ∨ (2 : Int) = 5 - 1)) ∨
      (((4 : Int) = 0 ∨ (4 : Int) = 5 - 1) ∧ 1 ≤ (2 : Int) ∧ (2 : Int) ≤ 5 - 2)) :=
  ⟨by decide, by decide, C2_drawWalls_mem_iff 5 5 (by decide) (by decide) 4 2⟩

/-! ## C3 -/

/-- C3: for a non-empty snake `hd :: tl` and every heading, the move step
returns the snake `[hd + offset d]` followed by the old snake without its last
element, with `offset` the table of the specification; the candidate has the
length of the old snake, and for a single-segment snake it is `[new head]`. -/
theorem C3_move_step (s : World) (hd : Point) (tl : List Point)
    (hs : s.snakePos = hd :: tl) :
    ∃ s1, moveSnake s = Except.ok s1 ∧
      s1.snakePos = [Point.mk (hd.x + (offset s.direction).1) (hd.y + (offset s.direction).2)]
        ++ s.snakePos.dropLast ∧
      s1.snakePos.length = s.snakePos.length ∧
      (tl = [] → s1.snakePos =
        [Point.mk (hd.x + (offset s.direction).1) (hd.y + (offset s.direction).2)]) := by
  have hoff : nextHead s.direction hd =
      Point.mk (hd.x + (offset s.direction).1) (hd.y + (offset s.direction).2) := by
    cases hdir : s.direction <;> simp [nextHead, offset] <;> omega
  refine ⟨movedWorld s hd, moveSnake_cons s hd tl hs, ?_, ?_, ?_⟩
  · simp [movedWorld, hoff]
  · simp [movedWorld, hs]
  · intro htl
    simp [movedWorld, hoff, hs, htl]

/-- C3 on the snake `[(2,2),(2,3),(3,3),(3,2)]` heading Right. -/
theorem C3_move_step_witness :
    tailChaser.snakePos = Point.mk 2 2 :: [Point.mk 2 3, Point.mk 3 3, Point.mk 3 2] ∧
    ∃ s1, moveSnake tailChaser = Except.ok s1 ∧
      s1.snakePos = [Point.mk ((Point.mk 2 2).x + (offset tailChaser.direction).1)
          ((Point.mk 2 2).y + (offset tailChaser.direction).2)]
        ++ tailChaser.snakePos.dropLast ∧
      s1.snakePos.length = tailChaser.snakePos.length ∧
      ([Point.mk 2 3, Point.mk 3 3, Point.mk 3 2] = [] → s1.snakePos =
        [Point.mk ((Point.mk 2 2).x + (offset tailChaser.direction).1)
          ((Point.mk 2 2).y + (offset tailChaser.direction).2)]) :=
  ⟨rfl, C3_move_step tailChaser (Point.mk 2 2) [Point.mk 2 3, Point.mk 3 3, Point.mk 3 2] rfl⟩


/-! ## C4 -/

/-- C4: on a tick that does not crash, with new head `C`: if `C` occurs in the
food list, the food check splits the list as `pre ++ C :: post` with `C` not in
`pre` and leaves `pre ++ post` (one entry equal to `C` fewer, the others in
their order), and the committed snake is one longer than the old one; if `C`
does not occur, the food check and the tick leave the food list as it was and
the committed snake has the old length. -/
theorem C4_food_check (w h : Int) (s s1 : World) (rnd rest : List Nat)
    (hd : Point) (tl : List Point) (hs : s.snakePos = hd :: tl)
    (ht : drawSnakeTick w h s rnd = Except.ok (TickResult.running s1 rest)) :
    (nextHead s.direction hd ∈ s.applePos →
      ∃ pre post,
        s.applePos = pre ++ nextHead s.direction hd :: post ∧
        nextHead s.direction hd ∉ pre ∧
        checkApple (movedWorld s hd) (nextHead s.direction hd) =
          (true, { movedWorld s hd with applePos := pre ++ post }) ∧
        List.count (nextHead s.direction hd) (pre ++ post) + 1 =
          List.count (nextHead s.direction hd) s.applePos ∧
        List.count (nextHead s.direction hd) s1.applePos + 1 =
          List.count (nextHead s.direction hd) s.applePos ∧
        s1.snakePos.length = s.snakePos.length + 1) ∧
    (nextHead s.direction hd ∉ s.applePos →
      checkApple (movedWorld s hd) (nextHead s.direction hd) = (false, movedWorld s hd) ∧
      s1.applePos = s.applePos ∧
      s1.snakePos.length = s.snakePos.length) := by
  constructor
  · intro ha
    obtain ⟨pre, post, hpre, hsplit, herase⟩ := List.exists_erase_eq ha
    have hsp := drawSnakeTick_running_eat w h s s1 rnd rest hd tl hs ht ha
    obtain ⟨c, hc, _, _, _, _, hfree⟩ := drawApple_ok _ _ _ _ _ _ _ hsp
    obtain ⟨hg1, hg2, _⟩ := grownWorld_fields s hd
    have hcount : List.count (nextHead s.direction hd) (pre ++ post) + 1 =
        List.count (nextHead s.direction hd) s.applePos := by
      rw [hsplit]
      simp [List.count_append]
      omega
    have hne : c ≠ nextHead s.direction hd := by
      intro hcn
      apply hfree
      rw [hg1, hcn]
      exact List.mem_cons_self _ _
    refine ⟨pre, post, hsplit, hpre, ?_, hcount, ?_, ?_⟩
    · rw [checkApple_of_mem (movedWorld s hd) _ (by simpa [movedWorld] using ha)]
      simp [movedWorld, herase]
    · rw [← hcount, hc]
      simp only [hg2, herase]
      rw [List.count_append, List.count_singleton]
      simp [hne]
    · rw [hc]
      simp [hg1]
  · intro ha
    obtain ⟨h1, _⟩ := drawSnakeTick_running_plain w h s s1 rnd rest hd tl hs ht ha
    refine ⟨checkApple_of_not_mem _ _ (by simpa [movedWorld] using ha), ?_, ?_⟩
    · rw [h1]
      rfl
    · rw [h1, hs]
      simp [movedWorld, hs]

/-- C4 on the scenario of the specification, with random numbers that make the
spawner draw `(3,2)` (occupied, retried) and then `(1,1)`. -/
theorem C4_food_check_witness :
    scenarioWorld.snakePos = Point.mk 2 2 :: [] ∧
    drawSnakeTick 5 5 scenarioWorld [2, 1, 0, 0] =
      Except.ok (TickResult.running scenarioAfter []) ∧
    ((nextHead scenarioWorld.direction (Point.mk 2 2) ∈ scenarioWorld.applePos →
      ∃ pre post,
        scenarioWorld.applePos = pre ++ nextHead scenarioWorld.direction (Point.mk 2 2) :: post ∧
        nextHead scenarioWorld.direction (Point.mk 2 2) ∉ pre ∧
        checkApple (movedWorld scenarioWorld (Point.mk 2 2))
            (nextHead scenarioWorld.direction (Point.mk 2 2)) =
          (true, { movedWorld scenarioWorld (Point.mk 2 2) with applePos := pre ++ post }) ∧
        List.count (nextHead scenarioWorld.direction (Point.mk 2 2)) (pre ++ post) + 1 =
          List.count (nextHead scenarioWorld.direction (Point.mk 2 2)) scenarioWorld.applePos ∧
        List.count (nextHead scenarioWorld.direction (Point.mk 2 2)) scenarioAfter.applePos + 1 =
          List.count (nextHead scenarioWorld.direction (Point.mk 2 2)) scenarioWorld.applePos ∧
        scenarioAfter.snakePos.length = scenarioWorld.snakePos.length + 1) ∧
    (nextHead scenarioWorld.direction (Point.mk 2 2) ∉ scenarioWorld.applePos →
      checkApple (movedWorld scenarioWorld (Point.mk 2 2))
          (nextHead scenarioWorld.direction (Point.mk 2 2)) =
        (false, movedWorld scenarioWorld (Point.mk 2 2)) ∧
      scenarioAfter.applePos = scenarioWorld.applePos ∧
      scenarioAfter.snakePos.length = scenarioWorld.snakePos.length)) :=
  ⟨rfl, rfl, C4_food_check 5 5 scenarioWorld scenarioAfter [2, 1, 0, 0] []
    (Point.mk 2 2) [] rfl rfl⟩

/-! ## C5 -/

/-- C5: on a tick that does not crash and whose new head `C` is a food entry,
for every list of random numbers on which the tick returns: the committed snake
is `C` followed by the whole old snake, the interval is that of `increaseSpeed`
on the old world (old - 10 when old > 10), and the food list is the old one with
the first `C` erased followed by one new cell `c` with `1 ≤ c.x ≤ w-2`,
`1 ≤ c.y ≤ h-2` that is no segment of the grown snake. -/
theorem C5_eating_tick (w h : Int) (s s1 : World) (rnd rest : List Nat)
    (hd : Point) (tl : List Point) (hs : s.snakePos = hd :: tl)
    (ht : drawSnakeTick w h s rnd = Except.ok (TickResult.running s1 rest))
    (ha : nextHead s.direction hd ∈ s.applePos) :
    s1.snakePos = nextHead s.direction hd :: s.snakePos ∧
    s1.speed = (increaseSpeed s).speed ∧
    (10 < s.speed → s1.speed = s.speed - 10) ∧
    ∃ c : Point,
      s1.applePos = s.applePos.erase (nextHead s.direction hd) ++ [c] ∧
      1 ≤ c.x ∧ c.x ≤ w - 2 ∧ 1 ≤ c.y ∧ c.y ≤ h - 2 ∧
      c ∉ s1.snakePos := by
  have hsp := drawSnakeTick_running_eat w h s s1 rnd rest hd tl hs ht ha
  obtain ⟨c, hc, hx1, hx2, hy1, hy2, hfree⟩ := drawApple_ok _ _ _ _ _ _ _ hsp
  obtain ⟨hg1, hg2, hg3, _⟩ := grownWorld_fields s hd
  have hsnake : s1.snakePos = nextHead s.direction hd :: s.snakePos := by
    rw [hc]
    exact hg1
  have hspeed : s1.speed = (increaseSpeed s).speed := by
    rw [hc]
    exact hg3
  refine ⟨hsnake, hspeed, ?_, c, ?_, hx1, hx2, hy1, hy2, ?_⟩
  · intro hgt
    rw [hspeed]
    unfold increaseSpeed
    simp only []
    rw [if_neg (by omega)]
  · rw [hc]
    simp [hg2]
  · rw [hsnake, ← hg1]
    exact hfree

/-- C5 on the scenario of the specification: the tick of `scenarioWorld` returns
`scenarioAfter`, with snake `[(3,2),(2,2)]`, interval 190 and the new food
`(1,1)`. -/
theorem C5_eating_tick_witness :
    scenarioWorld.snakePos = Point.mk 2 2 :: [] ∧
    drawSnakeTick 5 5 scenarioWorld [2, 1, 0, 0] =
      Except.ok (TickResult.running scenarioAfter []) ∧
    nextHead scenarioWorld.direction (Point.mk 2 2) ∈ scenarioWorld.applePos ∧
    (scenarioAfter.snakePos =
        nextHead scenarioWorld.direction (Point.mk 2 2) :: scenarioWorld.snakePos ∧
      scenarioAfter.speed = (increaseSpeed scenarioWorld).speed ∧
      (10 < scenarioWorld.speed → scenarioAfter.speed = scenarioWorld.speed - 10) ∧
      ∃ c : Point,
        scenarioAfter.applePos =
          scenarioWorld.applePos.erase (nextHead scenarioWorld.direction (Point.mk 2 2))
            ++ [c] ∧
        1 ≤ c.x ∧ c.x ≤ 5 - 2 ∧ 1 ≤ c.y ∧ c.y ≤ 5 - 2 ∧
        c ∉ scenarioAfter.snakePos) :=
  ⟨rfl, rfl, by decide,
    C5_eating_tick 5 5 scenarioWorld scenarioAfter [2, 1, 0, 0] [] (Point.mk 2 2) [] rfl rfl
      (by decide)⟩


/-! ## C6 -/

/-- C6, as stated, fails: it is not the case that in every state reachable
through ticks, arrow keys, `+`, `-` and `n` the snake has no repeated cell. The
schedule `overlapSchedule` on the 6 x 6 playfield ends in `overlapWorld`, whose
snake holds `(2,1)` twice. -/
theorem C6_overlap_counterexample :
    ¬ ∀ (w h : Int) (s : World), ReachableVia playerEvent w h s → s.snakePos.Nodup := by
  intro hall
  have hreach : ReachableVia playerEvent 6 6 overlapWorld :=
    reachableVia_runGame playerEvent 6 6 [2, 1] overlapSchedule overlapWorld
      ⟨Or.inr (Or.inr (Or.inr rfl)), Or.inl ⟨Direction.Left, rfl⟩,
        Or.inl ⟨Direction.Down, rfl⟩, Or.inl ⟨Direction.Right, rfl⟩,
        Or.inl ⟨Direction.Up, rfl⟩, Or.inl ⟨Direction.Left, rfl⟩, trivial⟩
      rfl
  have hnodup := hall 6 6 overlapWorld hreach
  revert hnodup
  decide

/-- C6, amended: in every running state reachable from the initial state
through engine ticks and input events (arrow keys, `+`, `-`, the `n` food spawn,
with any outcome of the random draws) in which every engine tick starts from a
food list without two equal entries, the snake contains no two equal
coordinates. -/
theorem C6_nodup_while_food_distinct (w h : Int) (s : World)
    (hr : ReachableDistinctFood w h s) : s.snakePos.Nodup :=
  (offSnakeInv_reachable w h s hr).1

/-- C6, amended, at the end of `spawnSchedule` on the 6 x 6 playfield, a
schedule with an `n` event after which two different apples are on the field. -/
theorem C6_nodup_while_food_distinct_witness :
    ReachableDistinctFood 6 6 spawnWorld ∧ spawnWorld.snakePos.Nodup :=
  have hreach : ReachableDistinctFood 6 6 spawnWorld :=
    reachableDistinctFood_runGame 6 6 [2, 1] spawnSchedule spawnWorld rfl rfl
  ⟨hreach, C6_nodup_while_food_distinct 6 6 spawnWorld hreach⟩

/-! ## C7 -/

/-- C7: in every state reachable through engine ticks and any input events, a
snake `hd :: neck :: rest` has `hd + offset(heading) ≠ neck`; hence every tick
from such a state, whether it ends in Over or keeps running, returns a snake
whose head is not the old neck. -/
theorem C7_heading_never_into_neck (w h : Int) (s : World) (hr : Reachable w h s)
    (hd neck : Point) (rest : List Point) (hs : s.snakePos = hd :: neck :: rest) :
    nextHead s.direction hd ≠ neck ∧
    ∀ (rnd : List Nat) (res : TickResult), drawSnakeTick w h s rnd = Except.ok res →
      res.world.snakePos.head? = some (nextHead s.direction hd) ∧
      res.world.snakePos.head? ≠ some neck := by
  have hneck : nextHead s.direction hd ≠ neck := by
    obtain ⟨d0, h1, h2, _⟩ := neckInv_reachable _ w h s hr hd neck rest hs
    intro hback
    rw [h1] at hback
    exact h2 (nextHead_back _ _ _ hback)
  refine ⟨hneck, ?_⟩
  intro rnd res ht
  have hhead : res.world.snakePos.head? = some (nextHead s.direction hd) := by
    cases res with
    | over s1 =>
      by_cases hc : nextHead s.direction hd ∈ s.wallPos ∨
          nextHead s.direction hd ∈ (hd :: neck :: rest).dropLast
      · rw [drawSnakeTick_crash w h s rnd hd _ hs hc] at ht
        have hinj := TickResult.over.inj (Except.ok.inj ht)
        rw [← hinj]
        rfl
      · rw [not_or] at hc
        by_cases ha : nextHead s.direction hd ∈ s.applePos
        · rw [drawSnakeTick_eat w h s rnd hd _ hs hc.1 hc.2 ha] at ht
          split at ht <;> cases ht
        · rw [drawSnakeTick_plain w h s rnd hd _ hs hc.1 hc.2 ha] at ht
          cases ht
    | running s1 rest1 =>
      by_cases ha : nextHead s.direction hd ∈ s.applePos
      · have hsp := drawSnakeTick_running_eat w h s s1 rnd rest1 hd _ hs ht ha
        obtain ⟨c, hc, _⟩ := drawApple_ok _ _ _ _ _ _ _ hsp
        obtain ⟨hg1, _⟩ := grownWorld_fields s hd
        simp only [TickResult.world]
        rw [hc]
        simp [hg1]
      · obtain ⟨h1, _⟩ := drawSnakeTick_running_plain w h s s1 rnd rest1 hd _ hs ht ha
        simp only [TickResult.world]
        rw [h1]
        rfl
  refine ⟨hhead, ?_⟩
  rw [hhead]
  intro heq
  exact hneck (Option.some.inj heq)

/-- C7 at the end of `quietSchedule`: snake `[(2,2),(3,2)]`, heading Left. -/
theorem C7_heading_never_into_neck_witness :
    Reachable 6 6 quietWorld ∧
    quietWorld.snakePos = Point.mk 2 2 :: Point.mk 3 2 :: [] ∧
    (nextHead quietWorld.direction (Point.mk 2 2) ≠ Point.mk 3 2 ∧
      ∀ (rnd : List Nat) (res : TickResult),
        drawSnakeTick 6 6 quietWorld rnd = Except.ok res →
        res.world.snakePos.head? = some (nextHead quietWorld.direction (Point.mk 2 2)) ∧
        res.world.snakePos.head? ≠ some (Point.mk 3 2)) :=
  have hreach : Reachable 6 6 quietWorld :=
    reachableVia_runGame (fun _ => True) 6 6 [2, 1] quietSchedule quietWorld
      ⟨trivial, trivial, trivial⟩ rfl
  ⟨hreach, rfl,
    C7_heading_never_into_neck 6 6 quietWorld hreach (Point.mk 2 2) (Point.mk 3 2) [] rfl⟩

/-! ## C8 -/

/-- C8: for every snake of more than one segment, every current heading and
either latch value, the arrow-key event for the reverse of the current heading
leaves the world, heading and latch included, as it was. -/
theorem C8_reverse_rejected (w h : Int) (s : World) (rnd : List Nat)
    (hlen : 1 < s.snakePos.length) :
    controlSnakeStep w h (arrowEvent s.direction.opposite) s rnd =
      Except.ok (ControlResult.looping s rnd) := by
  rw [controlSnakeStep_arrow, opposite_opposite]
  unfold turn
  rw [if_neg]
  intro hacc
  rcases hacc.1 with hne | hl
  · exact hne rfl
  · omega

/-- C8 on `upwardSnake`: arrow-Down is rejected. -/
theorem C8_reverse_rejected_witness :
    1 < upwardSnake.snakePos.length ∧
    controlSnakeStep 7 7 (arrowEvent upwardSnake.direction.opposite) upwardSnake [] =
      Except.ok (ControlResult.looping upwardSnake []) :=
  ⟨by decide, C8_reverse_rejected 7 7 upwardSnake [] (by decide)⟩

/-! ## C9 -/

/-- C9: for every single-segment snake, every current heading and every
requested direction, the reverse of the current heading included, an arrow-key
event that arrives while the latch is clear sets the heading to the requested
direction and sets the latch; nothing else changes. -/
theorem C9_single_segment_accepts (w h : Int) (s : World) (rnd : List Nat)
    (d : Direction) (hlen : s.snakePos.length = 1) (hlatch : s.updatedPosition = false) :
    controlSnakeStep w h (arrowEvent d) s rnd =
      Except.ok (ControlResult.looping
        { s with direction := d, updatedPosition := true } rnd) := by
  rw [controlSnakeStep_arrow]
  unfold turn
  rw [if_pos ⟨Or.inr hlen, hlatch⟩]

/-- C9 on `loneSegment`, heading Up: arrow-Down is accepted. -/
theorem C9_single_segment_accepts_witness :
    loneSegment.snakePos.length = 1 ∧ loneSegment.updatedPosition = false ∧
    controlSnakeStep 7 7 (arrowEvent Direction.Down) loneSegment [] =
      Except.ok (ControlResult.looping
        { loneSegment with direction := Direction.Down, updatedPosition := true } []) :=
  ⟨rfl, rfl, C9_single_segment_accepts 7 7 loneSegment [] Direction.Down rfl rfl⟩


/-! ## C10 -/

/-- C10: while the latch is set, every arrow-key event leaves the world, heading
and latch included, unchanged; a sequence `keys` of arrow-key events with no
tick in between ends either in the world it started from (none accepted) or in
the world produced by its first accepted event `d`, the events before `d` and
after `d` changing nothing; the move step of a tick hands the crash check a
world with the latch clear, and every outcome of a tick has the latch clear. -/
theorem C10_latch_one_change_per_tick (w h : Int) (s : World) (rnd : List Nat)
    (keys : List Direction) :
    (s.updatedPosition = true → ∀ d,
      controlSnakeStep w h (arrowEvent d) s rnd = Except.ok (ControlResult.looping s rnd)) ∧
    (∃ s1, pressArrows w h keys s rnd = Except.ok (ControlResult.looping s1 rnd) ∧
      (s1 = s ∨ ∃ pre d post, keys = pre ++ d :: post ∧
        pressArrows w h pre s rnd = Except.ok (ControlResult.looping s rnd) ∧
        controlSnakeStep w h (arrowEvent d) s rnd =
          Except.ok (ControlResult.looping s1 rnd) ∧
        s.updatedPosition = false ∧ s1.updatedPosition = true ∧ s1.direction = d ∧
        pressArrows w h post s1 rnd = Except.ok (ControlResult.looping s1 rnd))) ∧
    (∀ s1, moveSnake s = Except.ok s1 → s1.updatedPosition = false) ∧
    (∀ res, drawSnakeTick w h s rnd = Except.ok res → res.world.updatedPosition = false) := by
  refine ⟨?_, ?_, fun s1 hm => moveSnake_latch s s1 hm,
    fun res ht => drawSnakeTick_latch w h s rnd res ht⟩
  · intro hl d
    rw [controlSnakeStep_arrow, turn_latched d _ s hl]
  · induction keys with
    | nil => exact ⟨s, rfl, Or.inl rfl⟩
    | cons d more ih =>
      rcases turn_cases d d.opposite s with hrej | ⟨hclear, hacc⟩
      · obtain ⟨s1, hrun, hs1⟩ := ih
        refine ⟨s1, ?_, ?_⟩
        · rw [pressArrows_cons, hrej]
          exact hrun
        · rcases hs1 with heq | ⟨pre, d1, post, hk, hpre, hstep, h1, h2, h3, hpost⟩
          · exact Or.inl heq
          · refine Or.inr ⟨d :: pre, d1, post, ?_, ?_, hstep, h1, h2, h3, hpost⟩
            · rw [hk]
              rfl
            · rw [pressArrows_cons, hrej]
              exact hpre
      · have hlatched : (turn d d.opposite s).updatedPosition = true := by
          rw [hacc]
        have hpost := pressArrows_latched w h more (turn d d.opposite s) rnd hlatched
        refine ⟨turn d d.opposite s, ?_, Or.inr ⟨[], d, more, rfl, rfl, ?_, hclear,
          hlatched, ?_, hpost⟩⟩
        · rw [pressArrows_cons]
          exact hpost
        · rw [controlSnakeStep_arrow]
        · rw [hacc]

/-- C10 on `latchedSnake`, whose latch is set: no arrow key changes it. -/
theorem C10_latch_one_change_per_tick_witness :
    latchedSnake.updatedPosition = true ∧
    ∀ d, controlSnakeStep 7 7 (arrowEvent d) latchedSnake [] =
      Except.ok (ControlResult.looping latchedSnake []) :=
  ⟨rfl, (C10_latch_one_change_per_tick 7 7 latchedSnake [] []).1 rfl⟩


/-! ## C11 -/

/-- C11: when the interval is at its floor of 10, `increaseSpeed` leaves the
world, and so the interval, as it is, and so does any number of further
applications. -/
theorem C11_increaseSpeed_at_floor (s : World) (hfloor : s.speed = 10) :
    (increaseSpeed s).speed = 10 ∧ increaseSpeed s = s ∧
    ∀ n : Nat, (Nat.iterate increaseSpeed n s).speed = 10 ∧
      Nat.iterate increaseSpeed n s = s := by
  have hfix : increaseSpeed s = s := by
    unfold increaseSpeed
    simp only [hfloor]
    rw [if_pos (by decide)]
    cases s
    simp only [World.mk.injEq, true_and, and_true]
    exact hfloor.symm
  refine ⟨by rw [hfix, hfloor], hfix, ?_⟩
  intro n
  have hn : Nat.iterate increaseSpeed n s = s := Function.iterate_fixed hfix n
  exact ⟨by rw [hn, hfloor], hn⟩

/-- C11 on `floorWorld`. -/
theorem C11_increaseSpeed_at_floor_witness :
    floorWorld.speed = 10 ∧
    ((increaseSpeed floorWorld).speed = 10 ∧ increaseSpeed floorWorld = floorWorld ∧
      ∀ n : Nat, (Nat.iterate increaseSpeed n floorWorld).speed = 10 ∧
        Nat.iterate increaseSpeed n floorWorld = floorWorld) :=
  ⟨rfl, C11_increaseSpeed_at_floor floorWorld rfl⟩

/-! ## C12 -/

/-- C12: in every state reachable from the initial interval of 200 through
ticks (food consumption) and input events (`+`, `-`), in exact integer
arithmetic, the interval is a positive multiple of 10: it is positive, at
least the floor of 10, and divisible by 10. -/
theorem C12_interval_positive_multiple_of_ten (w h : Int) (s : World)
    (hr : Reachable w h s) :
    0 < s.speed ∧ 10 ≤ s.speed ∧ ∃ k : Int, 0 < k ∧ s.speed = 10 * k := by
  obtain ⟨h1, k, hk⟩ := speedInv_reachable _ w h s hr
  exact ⟨by omega, h1, k, by omega, hk⟩

/-- C12 at the end of `quietSchedule`, where the interval is 180. -/
theorem C12_interval_positive_multiple_of_ten_witness :
    Reachable 6 6 quietWorld ∧
    (0 < quietWorld.speed ∧ 10 ≤ quietWorld.speed ∧
      ∃ k : Int, 0 < k ∧ quietWorld.speed = 10 * k) :=
  have hreach : Reachable 6 6 quietWorld :=
    reachableVia_runGame (fun _ => True) 6 6 [2, 1] quietSchedule quietWorld
      ⟨trivial, trivial, trivial⟩ rfl
  ⟨hreach, C12_interval_positive_multiple_of_ten 6 6 quietWorld hreach⟩

/-! ## C13 -/

/-- C13: for `w ≥ 3`, `h ≥ 3`, every snake and every list of random numbers on
which `drawApple` returns, the world returned is the old one with one cell `c`
appended to the food list (the earlier entries unchanged and in order), with
`1 ≤ c.x ≤ w-2`, `1 ≤ c.y ≤ h-2`, `c` no segment of the snake passed in and `c`
no member of the wall list built for `w` x `h`. -/
theorem C13_spawner_contract (w h : Int) (hw : 3 ≤ w) (hh : 3 ≤ h)
    (snakePos : List Point) (s s1 : World) (rnd rest : List Nat)
    (hok : drawApple w h snakePos s rnd = Except.ok (s1, rest)) :
    ∃ c : Point, s1 = { s with applePos := s.applePos ++ [c] } ∧
      s1.applePos = s.applePos ++ [c] ∧
      1 ≤ c.x ∧ c.x ≤ w - 2 ∧ 1 ≤ c.y ∧ c.y ≤ h - 2 ∧
      c ∉ snakePos ∧ c ∉ drawWalls w h [] := by
  obtain ⟨c, hc, hx1, hx2, hy1, hy2, hfree⟩ := drawApple_ok _ _ _ _ _ _ _ hok
  have hwide : 0 < w - 2 ∧ 0 < h - 2 := ⟨by omega, by omega⟩
  refine ⟨c, hc, by rw [hc], hx1, hx2, hy1, hy2, hfree, ?_⟩
  intro hwall
  rw [mem_drawWalls] at hwall
  rcases hwall with hnil | ⟨x, _, hp | hp⟩ | ⟨y, _, _, hp | hp⟩
  · exact absurd hnil (List.not_mem_nil _)
  · have hy := congrArg Point.y hp
    simp only [] at hy
    omega
  · have hy := congrArg Point.y hp
    simp only [] at hy
    omega
  · have hx := congrArg Point.x hp
    simp only [] at hx
    omega
  · have hx := congrArg Point.x hp
    simp only [] at hx
    omega

/-- C13 on the 5 x 5 playfield with the snake `[(3,2),(2,2)]`: the first draw
`(3,2)` is occupied, the second, `(2,1)`, is appended after `(1,1)`. -/
theorem C13_spawner_contract_witness :
    (3 : Int) ≤ 5 ∧ (3 : Int) ≤ 5 ∧
    drawApple 5 5 scenarioAfter.snakePos scenarioAfter [2, 1, 1, 0, 7] =
      Except.ok (scenarioSpawned, [7]) ∧
    ∃ c : Point, scenarioSpawned = { scenarioAfter with applePos := scenarioAfter.applePos ++ [c] } ∧
      scenarioSpawned.applePos = scenarioAfter.applePos ++ [c] ∧
      1 ≤ c.x ∧ c.x ≤ 5 - 2 ∧ 1 ≤ c.y ∧ c.y ≤ 5 - 2 ∧
      c ∉ scenarioAfter.snakePos ∧ c ∉ drawWalls 5 5 [] :=
  ⟨by decide, by decide, rfl,
    C13_spawner_contract 5 5 (by decide) (by decide) scenarioAfter.snakePos scenarioAfter
      scenarioSpawned [2, 1, 1, 0, 7] [7] rfl⟩

/-! ## C14 -/

/-- C14: on a tick whose new head is a wall cell the engine ends in Over with
the moved world: food list and interval are those before the tick, so the food
check did not run and nothing was spawned, and no schedule continues past this
tick. -/
theorem C14_wall_hit_is_over (w h : Int) (s : World) (rnd : List Nat) (hd : Point)
    (tl : List Point) (hs : s.snakePos = hd :: tl)
    (hwall : nextHead s.direction hd ∈ s.wallPos) :
    ∃ s1, drawSnakeTick w h s rnd = Except.ok (TickResult.over s1) ∧
      s1.applePos = s.applePos ∧ s1.speed = s.speed ∧
      (∀ more : List Step, runSteps w h s (Step.tick rnd :: more) = none) := by
  have ht := drawSnakeTick_crash w h s rnd hd tl hs (Or.inl hwall)
  refine ⟨movedWorld s hd, ht, rfl, rfl, ?_⟩
  intro more
  simp only [runSteps, ht]

/-- C14 on `besideWall`: 5 x 5 playfield, head `(3,2)` one cell left of the wall
column `x = 4`, heading Right. -/
theorem C14_wall_hit_is_over_witness :
    besideWall.snakePos = Point.mk 3 2 :: [] ∧
    nextHead besideWall.direction (Point.mk 3 2) ∈ besideWall.wallPos ∧
    ∃ s1, drawSnakeTick 5 5 besideWall [0, 0] = Except.ok (TickResult.over s1) ∧
      s1.applePos = besideWall.applePos ∧ s1.speed = besideWall.speed ∧
      (∀ more : List Step, runSteps 5 5 besideWall (Step.tick [0, 0] :: more) = none) :=
  ⟨rfl, by decide,
    C14_wall_hit_is_over 5 5 besideWall [0, 0] (Point.mk 3 2) [] rfl (by decide)⟩


/-! ## C15 -/

/-- C15: for every snake of more than one segment with heading Up an arrow-Down
event changes nothing; and for every snake and every heading, with the latch
clear, the arrow-key event for the current heading is accepted once: the
heading stays, the latch becomes set, and snake, food list, interval and walls
are unchanged. -/
theorem C15_reverse_and_same_heading (w h : Int) (s : World) (rnd : List Nat) :
    (1 < s.snakePos.length → s.direction = Direction.Up →
      controlSnakeStep w h (arrowEvent Direction.Down) s rnd =
        Except.ok (ControlResult.looping s rnd)) ∧
    (s.updatedPosition = false →
      ∃ s1, controlSnakeStep w h (arrowEvent s.direction) s rnd =
          Except.ok (ControlResult.looping s1 rnd) ∧
        s1.direction = s.direction ∧ s1.updatedPosition = true ∧
        s1.snakePos = s.snakePos ∧ s1.applePos = s.applePos ∧
        s1.speed = s.speed ∧ s1.wallPos = s.wallPos) := by
  constructor
  · intro hlen hup
    rw [controlSnakeStep_arrow]
    unfold turn
    rw [if_neg]
    intro hacc
    rcases hacc.1 with hne | hl
    · exact hne hup
    · omega
  · intro hlatch
    refine ⟨{ s with updatedPosition := true }, ?_, rfl, rfl, rfl, rfl, rfl, rfl⟩
    rw [controlSnakeStep_arrow]
    unfold turn
    rw [if_pos ⟨Or.inl (opposite_ne s.direction), hlatch⟩]

/-- C15 on the snake `[(2,2),(2,3),(2,4)]` with the request Down: rejected with
heading Up (`upwardSnake`), accepted with heading Down (`downwardSnake`). -/
theorem C15_reverse_and_same_heading_witness :
    (1 < upwardSnake.snakePos.length ∧ upwardSnake.direction = Direction.Up ∧
      controlSnakeStep 7 7 (arrowEvent Direction.Down) upwardSnake [] =
        Except.ok (ControlResult.looping upwardSnake [])) ∧
    (downwardSnake.updatedPosition = false ∧
      ∃ s1, controlSnakeStep 7 7 (arrowEvent downwardSnake.direction) downwardSnake [] =
          Except.ok (ControlResult.looping s1 []) ∧
        s1.direction = downwardSnake.direction ∧ s1.updatedPosition = true ∧
        s1.snakePos = downwardSnake.snakePos ∧ s1.applePos = downwardSnake.applePos ∧
        s1.speed = downwardSnake.speed ∧ s1.wallPos = downwardSnake.wallPos) :=
  ⟨⟨by decide, rfl, (C15_reverse_and_same_heading 7 7 upwardSnake []).1 (by decide) rfl⟩,
    ⟨rfl, (C15_reverse_and_same_heading 7 7 downwardSnake []).2 rfl⟩⟩

/-! ## C16 -/

/-- C16: in every state reachable through engine ticks and input events the
snake has at least one segment, so the index 0 of the head and the index
`length - 1` of the tail are in range and no tick fails with an index fault. -/
theorem C16_snake_never_empty (w h : Int) (s : World) (hr : Reachable w h s) :
    1 ≤ s.snakePos.length ∧
    (∃ hd, s.snakePos[0]? = some hd) ∧
    (∃ lastPos, s.snakePos[s.snakePos.length - 1]? = some lastPos) ∧
    ∀ rnd, drawSnakeTick w h s rnd ≠ Except.error Fault.indexOutOfRange := by
  obtain ⟨hd, tl, hs⟩ := snake_ne_nil_reachable _ w h s hr
  have hlen : 1 ≤ s.snakePos.length := by
    rw [hs]
    simp
  refine ⟨hlen, ⟨hd, by rw [hs]; simp⟩, ?_, ?_⟩
  · have hlt : s.snakePos.length - 1 < s.snakePos.length := by omega
    exact ⟨s.snakePos[s.snakePos.length - 1], List.getElem?_eq_getElem hlt⟩
  · intro rnd
    exact drawSnakeTick_no_index_fault w h s rnd hd tl hs

/-- C16 at the end of `quietSchedule`. -/
theorem C16_snake_never_empty_witness :
    Reachable 6 6 quietWorld ∧
    (1 ≤ quietWorld.snakePos.length ∧
      (∃ hd, quietWorld.snakePos[0]? = some hd) ∧
      (∃ lastPos, quietWorld.snakePos[quietWorld.snakePos.length - 1]? = some lastPos) ∧
      ∀ rnd, drawSnakeTick 6 6 quietWorld rnd ≠ Except.error Fault.indexOutOfRange) :=
  have hreach : Reachable 6 6 quietWorld :=
    reachableVia_runGame (fun _ => True) 6 6 [2, 1] quietSchedule quietWorld
      ⟨trivial, trivial, trivial⟩ rfl
  ⟨hreach, C16_snake_never_empty 6 6 quietWorld hreach⟩

/-! ## C17 -/

/-- C17: for `w ≥ 3` and `h ≥ 3`, starting from an empty wall list, the list
built by `drawWalls` holds no coordinate twice and has `2*w + 2*(h-2)`
entries. -/
theorem C17_drawWalls_nodup_length (w h : Int) (hw : 3 ≤ w) (hh : 3 ≤ h) :
    (drawWalls w h []).Nodup ∧
    ((drawWalls w h []).length : Int) = 2 * w + 2 * (h - 2) := by
  rw [drawWalls_eq]
  constructor
  · rw [List.nil_append, List.nodup_append]
    refine ⟨nodup_wall_rows h (by omega) _, nodup_wall_columns w (by omega) _, ?_⟩
    rw [List.disjoint_left]
    intro p hrow hcol
    simp only [List.mem_flatMap, List.mem_range, List.mem_range', List.mem_cons,
      List.mem_singleton, List.not_mem_nil, or_false] at hrow hcol
    obtain ⟨x, _, hpx⟩ := hrow
    obtain ⟨y, ⟨i, hi, rfl⟩, hpy⟩ := hcol
    rcases hpx with rfl | rfl <;> rcases hpy with hb | hb <;>
      · have hy := congrArg Point.y hb
        simp only [] at hy
        omega
  · have hrows := length_flatMap_pair
      (fun x : Nat => [Point.mk (x : Int) 0, Point.mk (x : Int) (h - 1)])
      (List.range w.toNat) (fun _ => rfl)
    have hcols := length_flatMap_pair
      (fun y : Nat => [Point.mk 0 (y : Int), Point.mk (w - 1) (y : Int)])
      (List.range' 1 (h - 2).toNat) (fun _ => rfl)
    rw [List.nil_append, List.length_append, hrows, hcols,
      List.length_range, List.length_range']
    omega

/-- C17 on the 5 x 5 playfield: 16 wall cells. -/
theorem C17_drawWalls_nodup_length_witness :
    (3 : Int) ≤ 5 ∧ (3 : Int) ≤ 5 ∧
    ((drawWalls 5 5 []).Nodup ∧
      ((drawWalls 5 5 []).length : Int) = 2 * 5 + 2 * (5 - 2)) :=
  ⟨by decide, by decide, C17_drawWalls_nodup_length 5 5 (by decide) (by decide)⟩

/-! ## C18 -/

/-- C18, on the code: the session-end signal is not fired exactly once in every
execution. On the 4 x 4 playfield with no key typed the snake enters the wall
row on its second tick: `drawSnake` calls `termbox.Interrupt()` and `wg.Done()`,
the counter set by `wg.Add(1)` is 0 and `controlSnake` still runs; its next
`PollEvent` returns the interrupt, it leaves its loop and calls `wg.Done()`
again, and the counter is -1. On the quit path, Esc makes `controlSnake` fire
the signal while `drawSnake` is neither interrupted nor stopped. -/
theorem C18_done_called_twice_after_crash :
    runMain 4 4 [0, 0] [Step.tick [], Step.tick []] =
      some { world := crashedWorld, wgCounter := 0, interrupted := true,
             engineLive := false, inputLive := true } ∧
    runMain 4 4 [0, 0] [Step.tick [], Step.tick [], Step.input interruptEvent []] =
      some { world := crashedWorld, wgCounter := -1, interrupted := true,
             engineLive := false, inputLive := false } ∧
    runMain 4 4 [0, 0] [Step.input escEvent []] =
      some { world := freshWorld, wgCounter := 0, interrupted := false,
             engineLive := true, inputLive := false } :=
  ⟨rfl, rfl, rfl⟩

/-! ## C19 -/

/-- C19: for every wall set, every non-empty snake and every heading, the tick
ends in Over if and only if the new head is a wall cell or a cell of the old
snake without its last element; so a new head that is neither is no crash even
when it is the cell of the old tail, and a single-segment snake crashes exactly
when the new head is a wall cell. -/
theorem C19_crash_check_on_shifted_snake (w h : Int) (s : World) (rnd : List Nat)
    (hd : Point) (tl : List Point) (hs : s.snakePos = hd :: tl) :
    ((∃ s1, drawSnakeTick w h s rnd = Except.ok (TickResult.over s1)) ↔
      (nextHead s.direction hd ∈ s.wallPos ∨
        nextHead s.direction hd ∈ s.snakePos.dropLast)) ∧
    (s.snakePos.getLast? = some (nextHead s.direction hd) →
      nextHead s.direction hd ∉ s.wallPos →
      nextHead s.direction hd ∉ s.snakePos.dropLast →
      ¬ ∃ s1, drawSnakeTick w h s rnd = Except.ok (TickResult.over s1)) ∧
    (tl = [] →
      ((∃ s1, drawSnakeTick w h s rnd = Except.ok (TickResult.over s1)) ↔
        nextHead s.direction hd ∈ s.wallPos)) := by
  have hiff := drawSnakeTick_over_iff w h s rnd hd tl hs
  rw [← hs] at hiff
  refine ⟨hiff, ?_, ?_⟩
  · intro _ hnw hnb hover
    rcases hiff.1 hover with hc | hc
    · exact hnw hc
    · exact hnb hc
  · intro htl
    rw [hiff, hs, htl]
    simp

/-- C19 on `tailChaser`, whose new head `(3,2)` is the cell of its old tail. -/
theorem C19_crash_check_on_shifted_snake_witness :
    tailChaser.snakePos = Point.mk 2 2 :: [Point.mk 2 3, Point.mk 3 3, Point.mk 3 2] ∧
    (((∃ s1, drawSnakeTick 6 6 tailChaser [] = Except.ok (TickResult.over s1)) ↔
      (nextHead tailChaser.direction (Point.mk 2 2) ∈ tailChaser.wallPos ∨
        nextHead tailChaser.direction (Point.mk 2 2) ∈ tailChaser.snakePos.dropLast)) ∧
    (tailChaser.snakePos.getLast? = some (nextHead tailChaser.direction (Point.mk 2 2)) →
      nextHead tailChaser.direction (Point.mk 2 2) ∉ tailChaser.wallPos →
      nextHead tailChaser.direction (Point.mk 2 2) ∉ tailChaser.snakePos.dropLast →
      ¬ ∃ s1, drawSnakeTick 6 6 tailChaser [] = Except.ok (TickResult.over s1)) ∧
    ([Point.mk 2 3, Point.mk 3 3, Point.mk 3 2] = [] →
      ((∃ s1, drawSnakeTick 6 6 tailChaser [] = Except.ok (TickResult.over s1)) ↔
        nextHead tailChaser.direction (Point.mk 2 2) ∈ tailChaser.wallPos))) :=
  ⟨rfl, C19_crash_check_on_shifted_snake 6 6 tailChaser [] (Point.mk 2 2)
    [Point.mk 2 3, Point.mk 3 3, Point.mk 3 2] rfl⟩

/-! ## C20 -/

/-- C20: for `w ≥ 3` and `h ≥ 3`, in every running state reachable from the
start of `main` through engine ticks and input events, every snake segment is
an interior cell (`1 ≤ x ≤ w-2`, `1 ≤ y ≤ h-2`), hence inside the playfield and
no member of the wall list, which is the list built for `w` x `h`. -/
theorem C20_snake_stays_interior (w h : Int) (hw : 3 ≤ w) (hh : 3 ≤ h) (s : World)
    (hr : Reachable w h s) :
    s.wallPos = drawWalls w h [] ∧
    ∀ p ∈ s.snakePos,
      (1 ≤ p.x ∧ p.x ≤ w - 2 ∧ 1 ≤ p.y ∧ p.y ≤ h - 2) ∧
      (0 ≤ p.x ∧ p.x < w ∧ 0 ≤ p.y ∧ p.y < h) ∧
      p ∉ s.wallPos := by
  obtain ⟨hwalls, hin⟩ := interiorInv_reachable _ w h hw hh s hr
  refine ⟨hwalls, ?_⟩
  intro p hp
  obtain ⟨hx1, hx2, hy1, hy2⟩ := hin p hp
  refine ⟨⟨hx1, hx2, hy1, hy2⟩, ⟨by omega, by omega, by omega, by omega⟩, ?_⟩
  rw [hwalls]
  exact interior_not_mem_drawWalls w h p hx1 hx2 hy1 hy2

/-- C20 at the end of `quietSchedule` on the 6 x 6 playfield. -/
theorem C20_snake_stays_interior_witness :
    (3 : Int) ≤ 6 ∧ (3 : Int) ≤ 6 ∧ Reachable 6 6 quietWorld ∧
    (quietWorld.wallPos = drawWalls 6 6 [] ∧
      ∀ p ∈ quietWorld.snakePos,
        (1 ≤ p.x ∧ p.x ≤ 6 - 2 ∧ 1 ≤ p.y ∧ p.y ≤ 6 - 2) ∧
        (0 ≤ p.x ∧ p.x < 6 ∧ 0 ≤ p.y ∧ p.y < 6) ∧
        p ∉ quietWorld.wallPos) :=
  have hreach : Reachable 6 6 quietWorld :=
    reachableVia_runGame (fun _ => True) 6 6 [2, 1] quietSchedule quietWorld
      ⟨trivial, trivial, trivial⟩ rfl
  ⟨by decide, by decide, hreach,
    C20_snake_stays_interior 6 6 (by decide) (by decide) quietWorld hreach⟩

end LeWormy
